import Mathlib

/-!
Verification of the Flow Free / Number Link solver core.

This file gives a shallow embedding, in Lean 4, of the solver core found in
`src/Components/FlowSolver/Solver.tsx` (the path-enumeration "A*" strategy,
its binary min-heap, its grid-reachability A* subroutine, path application,
pair finding, the dispatcher `solve`) and of the board serializer found in
`src/solver/workers/solver.worker.ts`, together with theorems settling the
specification claims about them.

Modelling conventions:
* Boards are `List (List Nat)`; cell `(i, j)` is read with `getCell`
  (out-of-range reads default to `0`; all reads performed by the embedded
  code are bounds-guarded exactly as in the source, so the default is inert
  on the square boards the theorems quantify over).
* JavaScript exceptions are modelled with `Except`: the value
  `Except.error` corresponds to a thrown exception, and the `try/catch`
  blocks of `solveBoard` and `solve` are modelled by matching on it.
* The wall-clock timeout check `performance.now() - startTime > timeout`
  is modelled by an oracle `timer : Nat → Bool` consulted once per dequeue
  (the `tick` counter numbers the dequeues), and the final
  `performance.now()` reading by an oracle parameter `tEnd`.
* The unbounded search loops are given a `fuel` parameter; `none` denotes
  fuel exhaustion, and every theorem about the search quantifies over the
  fuel, so no behaviour is lost.
* The timeout exception value carries the node count at the moment of the
  throw; this is pure instrumentation (the catcher ignores it) used to
  state what information the catch in `solveBoard` discards.
-/

namespace FlowSolver

abbrev Cell : Type := Nat × Nat

abbrev Board : Type := List (List Nat)

/-- `const directions: Cell[] = [[-1, 0], [1, 0], [0, -1], [0, 1]];` -/
def directions : List (Int × Int) := [(-1, 0), (1, 0), (0, -1), (0, 1)]

/-- Read `board[i][j]`; out-of-range reads give `0` (never exercised by the
bounds-guarded embedded code on square boards). -/
def getCell (b : Board) (c : Cell) : Nat := (b.getD c.1 []).getD c.2 0

/-- Write `board[i][j] = v` (no-op out of range). -/
def setCell (b : Board) (c : Cell) (v : Nat) : Board :=
  b.set c.1 ((b.getD c.1 []).set c.2 v)

/-- Row-major list of the coordinates of a board, row by row, as scanned by
the `for i / for j` loops of `findPairs`. -/
def rmCells (b : Board) : List Cell :=
  (List.range b.length).flatMap fun i =>
    (List.range (b.getD i []).length).map fun j => (i, j)

/-- The scan core of `findPairs`: the accumulator holds the first occurrence
once seen; the function returns as soon as the second occurrence is found. -/
def fpAux (b : Board) (number : Nat) : List Cell → Option Cell → Option Cell × Option Cell
  | [], st => (st, none)
  | c :: cs, st =>
    if getCell b c = number then
      match st with
      | none => fpAux b number cs (some c)
      | some s => (some s, some c)
    else fpAux b number cs st

/-- `findPairs(board, number)`: first and second row-major occurrence of
`number` on the board. -/
def findPairs (b : Board) (number : Nat) : Option Cell × Option Cell :=
  fpAux b number (rmCells b) none

/-! ### The binary min-heap (`class MinHeap`), specialised as in the source
to entries `[f, g, x, y]` compared by `f`. -/

abbrev HeapEntry : Type := Nat × Nat × Nat × Nat

def heapDefault : HeapEntry := (0, 0, 0, 0)

/-- The array-destructuring swap `[h[i], h[j]] = [h[j], h[i]]`. -/
def heapSwap (h : List HeapEntry) (i j : Nat) : List HeapEntry :=
  (h.set i (h.getD j heapDefault)).set j (h.getD i heapDefault)

/-- `bubbleUp(index)`.  The index strictly decreases on every recursive
call, so `fuel = index` suffices; the fuel-out branch coincides with the
loop exit (it can only be reached at index `0`). -/
def bubbleUp (fuel : Nat) (h : List HeapEntry) (i : Nat) : List HeapEntry :=
  match fuel with
  | 0 => h
  | fuel + 1 =>
    match i with
    | 0 => h
    | j + 1 =>
      if (h.getD (j + 1) heapDefault).1 < (h.getD (j / 2) heapDefault).1 then
        bubbleUp fuel (heapSwap h (j + 1) (j / 2)) (j / 2)
      else h

/-- `push(item)`: append, then bubble up from the last index. -/
def heapPush (h : List HeapEntry) (x : HeapEntry) : List HeapEntry :=
  bubbleUp h.length (h ++ [x]) h.length

/-- The candidate after comparing with the left child in `bubbleDown`. -/
def pickLeft (h : List HeapEntry) (i : Nat) : Nat :=
  if 2 * i + 1 < h.length ∧
      (h.getD (2 * i + 1) heapDefault).1 < (h.getD i heapDefault).1 then 2 * i + 1 else i

/-- The index selected by one round of `bubbleDown` at `i`: the smallest of
`i` and its in-range children (left checked first, as in the source). -/
def pickSmallest (h : List HeapEntry) (i : Nat) : Nat :=
  if 2 * i + 2 < h.length ∧
      (h.getD (2 * i + 2) heapDefault).1 < (h.getD (pickLeft h i) heapDefault).1 then
    2 * i + 2
  else pickLeft h i

theorem pickLeft_spec (h : List HeapEntry) (i : Nat) :
    pickLeft h i = i ∨ (i < pickLeft h i ∧ pickLeft h i < h.length) := by
  unfold pickLeft
  split
  · right; omega
  · left; rfl

theorem pickSmallest_spec (h : List HeapEntry) (i : Nat) :
    pickSmallest h i = i ∨ (i < pickSmallest h i ∧ pickSmallest h i < h.length) := by
  unfold pickSmallest
  split
  · right; omega
  · exact pickLeft_spec h i

theorem heapSwap_length (h : List HeapEntry) (i j : Nat) :
    (heapSwap h i j).length = h.length := by
  simp [heapSwap]

/-- `bubbleDown(index)`.  The index strictly increases and stays below the
array length on every recursive call, so `fuel = length` suffices; the
fuel-out branch can only be reached when `pickSmallest` is the identity. -/
def bubbleDown (fuel : Nat) (h : List HeapEntry) (i : Nat) : List HeapEntry :=
  match fuel with
  | 0 => h
  | fuel + 1 =>
    if pickSmallest h i = i then h
    else bubbleDown fuel (heapSwap h i (pickSmallest h i)) (pickSmallest h i)

/-- `pop()`: return the root; move the array's last element to the root and
bubble it down. -/
def heapPop (h : List HeapEntry) : Option (HeapEntry × List HeapEntry) :=
  match h with
  | [] => none
  | [x] => some (x, [])
  | top :: a :: tail =>
    let h2 := ((top :: a :: tail).dropLast).set 0
      ((a :: tail).getLast (List.cons_ne_nil a tail))
    some (top, bubbleDown h2.length h2 0)

/-! ### The visited grid of `aStar` -/

def mkVis (n : Nat) : List (List Bool) := List.replicate n (List.replicate n false)

/-- Out-of-range reads give `true` (never exercised: all the source's reads
are inside the `n × n` grid it allocates). -/
def getVis (v : List (List Bool)) (r c : Nat) : Bool := (v.getD r []).getD c true

def setVis (v : List (List Bool)) (r c : Nat) : List (List Bool) :=
  v.set r ((v.getD r []).set c true)

def countFalse (v : List (List Bool)) : Nat :=
  (v.map fun row => row.countP fun b => !b).sum

theorem countP_set_true (row : List Bool) (c : Nat) (h : row.getD c true = false) :
    ((row.set c true).countP fun b => !b) + 1 = row.countP fun b => !b := by
  induction row generalizing c with
  | nil => simp [List.getD] at h
  | cons b bs ihr =>
    cases c with
    | zero =>
      simp only [List.getD_cons_zero] at h
      subst h
      simp [List.countP_cons]
    | succ c2 =>
      simp only [List.getD_cons_succ] at h
      have := ihr c2 h
      simp only [List.set_cons_succ, List.countP_cons]
      omega

theorem countFalse_setVis (v : List (List Bool)) (r c : Nat)
    (h : getVis v r c = false) : countFalse (setVis v r c) + 1 = countFalse v := by
  induction v generalizing r with
  | nil => simp [getVis] at h
  | cons row rest ih =>
    cases r with
    | zero =>
      simp only [getVis, List.getD_cons_zero] at h
      simp only [setVis, countFalse, List.set_cons_zero, List.getD_cons_zero, List.map_cons,
        List.sum_cons]
      have hrow := countP_set_true row c h
      omega
    | succ r2 =>
      simp only [getVis, List.getD_cons_succ] at h
      have := ih r2 h
      simp only [setVis, countFalse, List.set_cons_succ, List.getD_cons_succ, List.map_cons,
        List.sum_cons] at *
      omega

/-! ### `aStar` -/

/-- One pass over the four `directions` inside the `while` loop of `aStar`:
either an early `return g + 1` (the neighbour is the target), or the updated
visited grid and heap. -/
def aStarDirs (board : Board) (endc : Cell) (g x y : Nat) :
    List (Int × Int) → List (List Bool) → List HeapEntry →
      Sum Nat (List (List Bool) × List HeapEntry)
  | [], vis, pq => Sum.inr (vis, pq)
  | (dx, dy) :: ds, vis, pq =>
    let nx : Int := (x : Int) + dx
    let ny : Int := (y : Int) + dy
    if 0 ≤ nx ∧ nx < (board.length : Int) ∧ 0 ≤ ny ∧ ny < (board.length : Int) then
      if getVis vis nx.toNat ny.toNat then aStarDirs board endc g x y ds vis pq
      else if nx.toNat = endc.1 ∧ ny.toNat = endc.2 then Sum.inl (g + 1)
      else if getCell board (nx.toNat, ny.toNat) = 0 then
        aStarDirs board endc g x y ds (setVis vis nx.toNat ny.toNat)
          (heapPush pq (g + 1 + (((nx.toNat : Int) - (endc.1 : Int)).natAbs +
            ((ny.toNat : Int) - (endc.2 : Int)).natAbs), g + 1, nx.toNat, ny.toNat))
      else aStarDirs board endc g x y ds vis pq
    else aStarDirs board endc g x y ds vis pq

theorem bubbleUp_length (fuel : Nat) (h : List HeapEntry) (i : Nat) :
    (bubbleUp fuel h i).length = h.length := by
  induction fuel generalizing h i with
  | zero => rfl
  | succ fuel ih =>
    cases i with
    | zero => rfl
    | succ j =>
      simp only [bubbleUp]
      split
      · rw [ih, heapSwap_length]
      · rfl

theorem heapPush_length (h : List HeapEntry) (x : HeapEntry) :
    (heapPush h x).length = h.length + 1 := by
  rw [heapPush, bubbleUp_length, List.length_append, List.length_cons, List.length_nil]

theorem bubbleDown_length (fuel : Nat) (h : List HeapEntry) (i : Nat) :
    (bubbleDown fuel h i).length = h.length := by
  induction fuel generalizing h i with
  | zero => rfl
  | succ fuel ih =>
    simp only [bubbleDown]
    split
    · rfl
    · rw [ih, heapSwap_length]

theorem heapPop_length (h : List HeapEntry) (e : HeapEntry) (h2 : List HeapEntry)
    (hp : heapPop h = some (e, h2)) : h2.length + 1 = h.length := by
  match h with
  | [] => simp [heapPop] at hp
  | [x] =>
    simp [heapPop] at hp
    simp [hp.2.symm]
  | top :: a :: tail =>
    simp only [heapPop, Option.some.injEq, Prod.mk.injEq] at hp
    rw [← hp.2, bubbleDown_length, List.length_set, List.length_dropLast]
    simp

theorem aStarDirs_measure (board : Board) (endc : Cell) (g x y : Nat)
    (ds : List (Int × Int)) (vis : List (List Bool)) (pq : List HeapEntry)
    (vis2 : List (List Bool)) (pq2 : List HeapEntry)
    (h : aStarDirs board endc g x y ds vis pq = Sum.inr (vis2, pq2)) :
    5 * countFalse vis2 + pq2.length ≤ 5 * countFalse vis + pq.length := by
  induction ds generalizing vis pq with
  | nil =>
    simp only [aStarDirs, Sum.inr.injEq, Prod.mk.injEq] at h
    rw [h.1, h.2]
  | cons d ds ih =>
    match d with
    | (dx, dy) =>
      simp only [aStarDirs] at h
      split at h
      · split at h
        · exact ih _ _ h
        · split at h
          · exact absurd h (by simp)
          · split at h
            · have hle := ih _ _ h
              rename_i hb hnv _ _
              have hcf := countFalse_setVis vis ((x : Int) + dx).toNat ((y : Int) + dy).toNat
                (by simpa using hnv)
              rw [heapPush_length] at hle
              omega
            · exact ih _ _ h
      · exact ih _ _ h

/-- The `while (pq.length > 0)` loop of `aStar`.  Each iteration strictly
decreases `5 * countFalse vis + pq.length` (a pop removes one heap entry
and every push marks a previously unvisited cell), so that measure is a
sufficient fuel; the fuel-out branch can only be reached with an empty
heap, where it coincides with the loop exit. -/
def aStarLoop (fuel : Nat) (board : Board) (endc : Cell) (vis : List (List Bool))
    (pq : List HeapEntry) : Option Nat :=
  match fuel with
  | 0 => none
  | fuel + 1 =>
    match heapPop pq with
    | none => none
    | some (e, pq2) =>
      if e.2.2.1 = endc.1 ∧ e.2.2.2 = endc.2 then some e.2.1
      else
        match aStarDirs board endc e.2.1 e.2.2.1 e.2.2.2 directions vis pq2 with
        | Sum.inl gr => some gr
        | Sum.inr (vis2, pq3) => aStarLoop fuel board endc vis2 pq3

/-- `aStar(board, start, end)`: `none` models the JavaScript `Infinity`. -/
def aStar (board : Board) (start endc : Cell) : Option Nat :=
  aStarLoop (5 * countFalse (setVis (mkVis board.length) start.1 start.2) + 1) board endc
    (setVis (mkVis board.length) start.1 start.2)
    (heapPush [] (0, 0, start.1, start.2))

/-! ### `applyPath` and `lookaheadHeuristics` -/

/-- `applyPath(board, path, number)`: fresh copy with `number` written into
every cell of the path. -/
def applyPath (board : Board) (path : List Cell) (number : Nat) : Board :=
  path.foldl (fun nb c => setCell nb c number) board

/-- The `for` loop of `lookaheadHeuristics`, with `fuel = maxNum + 1 - cur`
(the fuel-out branch can only be reached once `cur > maxNum`, where it
coincides with the loop exit). -/
def lookaheadAux (board : Board) (pairs : Nat → Option (Option Cell × Option Cell))
    (maxNum : Nat) : Nat → Nat → Bool
  | 0, _ => false
  | fuel + 1, cur =>
    if cur ≤ maxNum then
      match pairs cur with
      | some (some s, some e) =>
        if aStar board s e = none then true
        else lookaheadAux board pairs maxNum fuel (cur + 1)
      | _ => lookaheadAux board pairs maxNum fuel (cur + 1)
    else false

/-- `lookaheadHeuristics(board, pairs, currentNumber)`: `true` models the
`return Infinity` outcome, `false` the `return null` outcome. -/
def lookaheadHeuristics (board : Board) (pairs : Nat → Option (Option Cell × Option Cell))
    (maxNum cur : Nat) : Bool :=
  lookaheadAux board pairs maxNum (maxNum + 1 - cur) cur

/-! ### `explorePathsForNumber` -/

/-- Exceptions thrown inside the search: `'No Solution Exists'` and
`'Timeout Exceeded'`.  The timeout value records, as pure instrumentation,
the node count accumulated at the moment of the throw. -/
inductive XErr : Type
  | noSolution : XErr
  | timeout (nc : Nat) : XErr
deriving DecidableEq

/-- A queue entry `[x, y, path]` of the path-enumeration BFS. -/
abbrev QEntry : Type := Nat × Nat × List Cell

/-- Result of a search call: `none` is fuel exhaustion; `some (Except.error e)`
a thrown exception; `some (Except.ok (b?, nodeCount, tick))` the returned
`[board-or-null, nodeCount]` plus the dequeue counter. -/
abbrev ERes : Type := Option (Except XErr (Option Board × Nat × Nat))

/-- The neighbour-extension `for (const [dx, dy] of directions)` loop at the
bottom of the BFS `while` loop: appends one queue entry per admissible
neighbour (in bounds, not on the current path, empty or the target). -/
def extendPaths (board : Board) (endCell : Cell) (cx cy : Nat) (path : List Cell) :
    List (Int × Int) → List QEntry → List QEntry
  | [], q => q
  | (dx, dy) :: ds, q =>
    let nx : Int := (cx : Int) + dx
    let ny : Int := (cy : Int) + dy
    if 0 ≤ nx ∧ nx < (board.length : Int) ∧ 0 ≤ ny ∧
        ny < ((board.getD 0 []).length : Int) then
      if (nx.toNat, ny.toNat) ∈ path then extendPaths board endCell cx cy path ds q
      else if getCell board (nx.toNat, ny.toNat) = 0 ∨ (nx.toNat, ny.toNat) = endCell then
        extendPaths board endCell cx cy path ds
          (q ++ [(nx.toNat, ny.toNat, path ++ [(nx.toNat, ny.toNat)])])
      else extendPaths board endCell cx cy path ds q
    else extendPaths board endCell cx cy path ds q

/-- The BFS `while (queue.length > 0)` loop of `explorePathsForNumber`.
`rec` is the recursive descent into the next color (`explorePathsForNumber`
at the color `number + 1`), taking the new board, new `sumPath`, node count
and tick.  The loop itself consumes one fuel per dequeue. -/
def exploreLoop (board : Board) (sumPath number : Nat)
    (pairs : Nat → Option (Option Cell × Option Cell))
    (minDist : Nat) (endCell : Cell)
    (rec : Board → Nat → Nat → Nat → ERes) (timer : Nat → Bool) :
    Nat → List QEntry → List (List Cell) → Nat → Nat → ERes
  | 0, _, _, _, _ => none
  | fuel + 1, queue, visitedPaths, nodeCount, tick =>
    match queue with
    | [] => some (Except.ok (none, nodeCount, tick))
    | (cx, cy, path) :: rest =>
      if timer tick then some (Except.error (XErr.timeout nodeCount))
      else if cx = endCell.1 ∧ cy = endCell.2 then
        if minDist ≤ path.length then
          if path ∈ visitedPaths then
            exploreLoop board sumPath number pairs minDist endCell rec timer fuel rest
              visitedPaths nodeCount (tick + 1)
          else
            let newBoard := applyPath board path number
            if (pairs (number + 1)).isSome then
              if sumPath + path.length = board.length ^ 2 then
                some (Except.ok (some newBoard, nodeCount + 1, tick + 1))
              else
                match rec newBoard (sumPath + path.length) (nodeCount + 1) (tick + 1) with
                | none => none
                | some (Except.error e) => some (Except.error e)
                | some (Except.ok (some result, nc3, tick3)) =>
                  some (Except.ok (some result, nc3, tick3))
                | some (Except.ok (none, nc3, tick3)) =>
                  exploreLoop board sumPath number pairs minDist endCell rec timer fuel rest
                    (path :: visitedPaths) nc3 tick3
            else
              if sumPath + path.length = board.length * board.length then
                some (Except.ok (some newBoard, nodeCount + 1, tick + 1))
              else
                exploreLoop board sumPath number pairs minDist endCell rec timer fuel rest
                  (path :: visitedPaths) (nodeCount + 1) (tick + 1)
        else
          exploreLoop board sumPath number pairs minDist endCell rec timer fuel rest
            visitedPaths nodeCount (tick + 1)
      else
        exploreLoop board sumPath number pairs minDist endCell rec timer fuel
          (extendPaths board endCell cx cy path directions rest) visitedPaths
          nodeCount (tick + 1)

/-- `explorePathsForNumber(board, sumPath, number, pairs, nodeCount, ...)`.
`pairs` maps a color to `none` when the key is absent from the record. -/
def explorePathsForNumber : Nat → Board → Nat → Nat →
    (Nat → Option (Option Cell × Option Cell)) → Nat → Nat → Nat → (Nat → Bool) → ERes
  | 0, _, _, _, _, _, _, _, _ => none
  | fuel + 1, board, sumPath, number, pairs, maxNum, nodeCount, tick, timer =>
    match pairs number with
    | none => some (Except.error XErr.noSolution)
    | some (startCell?, endCell?) =>
      match startCell?, endCell? with
      | some startCell, some endCell =>
        match aStar board startCell endCell with
        | none => some (Except.ok (none, nodeCount, tick))
        | some minDist =>
          if lookaheadHeuristics board pairs maxNum (number + 1) then
            some (Except.ok (none, nodeCount, tick))
          else
            exploreLoop board sumPath number pairs minDist endCell
              (fun b2 s2 nc2 t2 =>
                explorePathsForNumber fuel b2 s2 (number + 1) pairs maxNum nc2 t2 timer)
              timer fuel [(startCell.1, startCell.2, [startCell])] [] nodeCount tick
      | _, _ => some (Except.ok (none, nodeCount, tick))

/-! ### `solveBoard` and `solve` -/

/-- `Math.max(...board.flat())`, clamped at `0` (when the flat list is empty
the JavaScript value is `-Infinity` and the validation loop below likewise
does not run). -/
def maxColor (B : Board) : Nat := B.foldl (fun a row => row.foldl max a) 0

/-- The pair record built by `solveBoard`: keys `1 .. maxNum` only. -/
def pairsOf (B : Board) : Nat → Option (Option Cell × Option Cell) := fun k =>
  if 1 ≤ k ∧ k ≤ maxColor B then some (findPairs B k) else none

/-- `solveBoard(board)`.  `Except.error ()` is the `Number ... does not have
a pair` throw (raised outside the `try`, so it propagates to `solve`);
inside the `Except.ok`, `none` is fuel exhaustion and the pair is the
returned `[board-or-null, nodeCount]` (the catch inside `solveBoard` turns
any search exception into `[null, 0]`, the outer `nodeCount` variable never
having been updated). -/
def solveBoard (B : Board) (timer : Nat → Bool) (fuel : Nat) :
    Except Unit (Option (Option Board × Nat)) :=
  if (List.range (maxColor B)).all fun i =>
      (findPairs B (i + 1)).1.isSome && (findPairs B (i + 1)).2.isSome then
    Except.ok (match explorePathsForNumber fuel B 0 1 (pairsOf B) (maxColor B) 0 0 timer with
      | none => none
      | some (Except.error _) => some (none, 0)
      | some (Except.ok (b?, nc, _)) => some (b?, nc))
  else Except.error ()

/-- The result envelope of `solve`. -/
structure SolveResult : Type where
  board : Option Board
  timedOut : Bool
  timeTaken : Nat
  nodeCount : Nat
deriving DecidableEq

/-- The envelope returned by the early-exit checks and by the `catch` of
`solve`. -/
def zeroEnv : SolveResult :=
  { board := none, timedOut := false, timeTaken := 0, nodeCount := 0 }

/-- The body of `solve` without its surrounding `try/catch`: an
`Except.error` models an exception reaching the dispatcher boundary.
`tEnd` is the oracle for the final `performance.now() - startTime` reading. -/
def solveRaw (input : Option Board) (timer : Nat → Bool) (fuel tEnd : Nat) :
    Option (Except Unit SolveResult) :=
  match input with
  | none => some (Except.ok zeroEnv)
  | some B =>
    if B.length = 0 then some (Except.ok zeroEnv)
    else
      match solveBoard B timer fuel with
      | Except.error e => some (Except.error e)
      | Except.ok none => none
      | Except.ok (some (bres, nc)) =>
        some (Except.ok
          { board := bres, timedOut := bres.isNone && decide (14900 ≤ tEnd),
            timeTaken := tEnd, nodeCount := nc })

/-- `solve(board)`: the dispatcher, with its `try/catch` converting any
exception into the zero envelope. -/
def solve (input : Option Board) (timer : Nat → Bool) (fuel tEnd : Nat) :
    Option SolveResult :=
  match solveRaw input timer fuel tEnd with
  | none => none
  | some (Except.ok r) => some r
  | some (Except.error _) => some zeroEnv

/-! ### The heuristic-BFS serializer (`src/solver/workers/solver.worker.ts`) -/

/-- `const COLOR_CHARS = ['', 'R', 'B', 'Y', 'G', 'O', 'C', 'M', 'm', 'P',
'A', 'W', 'g', 'T', 'b', 'c', 'p'];` -/
def COLOR_CHARS : List String :=
  ["", "R", "B", "Y", "G", "O", "C", "M", "m", "P", "A", "W", "g", "T", "b", "c", "p"]

/-- The serialization loop of `solveHeuristicBFS`: for each `r`, emit the
characters of `board[c][r]` for `c = 0 .. size-1` and then a newline. -/
def serializeBoard (board : Board) : String :=
  (List.range board.length).foldl (fun acc r =>
    ((List.range board.length).foldl (fun acc2 c =>
      acc2 ++ (if 0 < getCell board (c, r) ∧ getCell board (c, r) < COLOR_CHARS.length then
        COLOR_CHARS.getD (getCell board (c, r)) "" else ".")) acc) ++ "\n") ""

/-! ### Specification-level notions -/

/-- `b` is an `n × n` board. -/
def SquareBoard (b : Board) (n : Nat) : Prop :=
  b.length = n ∧ ∀ row ∈ b, row.length = n

/-- In bounds of an `n × n` board. -/
def InBn (n : Nat) (c : Cell) : Prop := c.1 < n ∧ c.2 < n

instance (n : Nat) (c : Cell) : Decidable (InBn n c) :=
  inferInstanceAs (Decidable (c.1 < n ∧ c.2 < n))

/-- In bounds of a (possibly ragged) board: the cell has an actual entry. -/
def InB (b : Board) (c : Cell) : Prop :=
  c.1 < b.length ∧ c.2 < (b.getD c.1 []).length

instance (b : Board) (c : Cell) : Decidable (InB b c) :=
  inferInstanceAs (Decidable (c.1 < b.length ∧ c.2 < (b.getD c.1 []).length))

instance (b : Board) (n : Nat) : Decidable (SquareBoard b n) :=
  inferInstanceAs (Decidable (b.length = n ∧ ∀ row ∈ b, row.length = n))

/-- 4-connected adjacency of two cells. -/
def adjacentCells (a b : Cell) : Prop :=
  (a.1 = b.1 ∧ (a.2 + 1 = b.2 ∨ b.2 + 1 = a.2)) ∨
    (a.2 = b.2 ∧ (a.1 + 1 = b.1 ∨ b.1 + 1 = a.1))

instance (a b : Cell) : Decidable (adjacentCells a b) :=
  inferInstanceAs (Decidable ((a.1 = b.1 ∧ (a.2 + 1 = b.2 ∨ b.2 + 1 = a.2)) ∨
    (a.2 = b.2 ∧ (a.1 + 1 = b.1 ∨ b.1 + 1 = a.1))))

theorem adjacentCells_symm {a b : Cell} (h : adjacentCells a b) : adjacentCells b a := by
  unfold adjacentCells at *; tauto

theorem adjacentCells_ne {a b : Cell} (h : adjacentCells a b) : a ≠ b := by
  unfold adjacentCells at h
  rintro rfl
  omega

/-- Consecutive cells of the list are 4-adjacent. -/
def chainAdj : List Cell → Bool
  | [] => true
  | [_] => true
  | a :: b :: rest => decide (adjacentCells a b) && chainAdj (b :: rest)

theorem chainAdj_iff (p : List Cell) :
    chainAdj p = true ↔ List.Chain' adjacentCells p := by
  match p with
  | [] => simp [chainAdj]
  | [a] => simp [chainAdj]
  | a :: b :: rest =>
    rw [chainAdj, List.chain'_cons, Bool.and_eq_true, decide_eq_true_eq,
      chainAdj_iff (b :: rest)]

/-- A 4-connected simple path on the `n × n` board `b` from `s` to `t` whose
cells other than the two ends are all empty (`s` and `t` are exempt): the
path class over which `aStar`'s specification is stated. -/
def isOpenPath (b : Board) (s t : Cell) (p : List Cell) : Prop :=
  p.head? = some s ∧ p.getLast? = some t ∧ chainAdj p = true ∧
    p.Nodup ∧ (∀ c ∈ p, InBn b.length c) ∧ ∀ c ∈ (p.drop 1).dropLast, getCell b c = 0

instance (b : Board) (s t : Cell) (p : List Cell) : Decidable (isOpenPath b s t p) :=
  inferInstanceAs (Decidable (p.head? = some s ∧ p.getLast? = some t ∧
    chainAdj p = true ∧ p.Nodup ∧ (∀ c ∈ p, InBn b.length c) ∧
    ∀ c ∈ (p.drop 1).dropLast, getCell b c = 0))

/-- Number of occurrences of the value `k` on the board. -/
def countOcc (b : Board) (k : Nat) : Nat :=
  (rmCells b).countP fun c => decide (getCell b c = k)

/-- Number of positive (labelled) cells of the board. -/
def posCount (b : Board) : Nat :=
  (rmCells b).countP fun c => decide (0 < getCell b c)

/-! ### Basic lemmas about boards, `rmCells`, `setCell`, `applyPath` -/

theorem mem_rmCells (b : Board) (c : Cell) : c ∈ rmCells b ↔ InB b c := by
  obtain ⟨i, j⟩ := c
  simp only [rmCells, List.mem_flatMap, List.mem_map, List.mem_range, InB]
  constructor
  · rintro ⟨i2, hi2, j2, hj2, heq⟩
    obtain ⟨rfl, rfl⟩ : i2 = i ∧ j2 = j := by
      constructor <;> [exact congrArg Prod.fst heq; exact congrArg Prod.snd heq]
    exact ⟨hi2, hj2⟩
  · rintro ⟨hi, hj⟩
    exact ⟨i, hi, j, hj, rfl⟩

theorem nodup_rmCells (b : Board) : (rmCells b).Nodup := by
  rw [rmCells, List.nodup_flatMap]
  refine ⟨fun i _ => ?_, ?_⟩
  · exact (List.nodup_range _).map fun a b h => congrArg Prod.snd h
  · refine (List.pairwise_lt_range _).imp ?_
    intro i j hij
    intro c hc hc2
    simp only [Function.onFun, List.mem_map, List.mem_range] at hc hc2
    obtain ⟨a, _, rfl⟩ := hc
    obtain ⟨a2, _, heq⟩ := hc2
    have := congrArg Prod.fst heq
    simp at this
    omega

theorem rowLength_of_square (b : Board) (n : Nat) (hb : SquareBoard b n) (i : Nat)
    (hi : i < b.length) : (b.getD i []).length = n := by
  rw [List.getD_eq_getElem?_getD, List.getElem?_eq_getElem hi, Option.getD_some]
  exact hb.2 _ (List.getElem_mem hi)

theorem length_rmCells (b : Board) (n : Nat) (hb : SquareBoard b n) :
    (rmCells b).length = n * n := by
  simp only [rmCells, List.length_flatMap]
  have h2 : ∀ i ∈ List.range b.length,
      (List.length ∘ fun i => List.map (fun j => ((i, j) : Cell))
        (List.range (List.getD b i []).length)) i = n := by
    intro i hi
    rw [List.mem_range] at hi
    have h3 := rowLength_of_square b n hb i hi
    simp only [Function.comp_apply, List.length_map, List.length_range]
    exact h3
  rw [List.map_congr_left h2, List.map_const', List.sum_replicate, List.length_range,
    hb.1, smul_eq_mul]

theorem InB_iff_InBn (b : Board) (n : Nat) (hb : SquareBoard b n) (c : Cell) :
    InB b c ↔ InBn n c := by
  obtain ⟨hlen, hrow⟩ := hb
  unfold InB InBn
  constructor
  · rintro ⟨h1, h2⟩
    refine ⟨hlen ▸ h1, ?_⟩
    rw [List.getD_eq_getElem?_getD, List.getElem?_eq_getElem h1] at h2
    simpa [hrow _ (b.getElem_mem h1)] using h2
  · rintro ⟨h1, h2⟩
    have h1b : c.1 < b.length := hlen ▸ h1
    refine ⟨h1b, ?_⟩
    rw [List.getD_eq_getElem?_getD, List.getElem?_eq_getElem h1b]
    simpa [hrow _ (b.getElem_mem h1b)] using h2

theorem setCell_length (b : Board) (c : Cell) (v : Nat) :
    (setCell b c v).length = b.length := by
  simp [setCell]

theorem setCell_rowLength (b : Board) (c : Cell) (v : Nat) (i : Nat) :
    ((setCell b c v).getD i []).length = (b.getD i []).length := by
  unfold setCell
  simp only [List.getD_eq_getElem?_getD]
  rcases eq_or_ne i c.1 with rfl | hne
  · rcases Nat.lt_or_ge c.1 b.length with hlt | hge
    · rw [List.getElem?_set_self hlt, Option.getD_some, List.length_set]
    · rw [List.set_eq_of_length_le hge]
  · rw [List.getElem?_set_ne hne.symm]

theorem SquareBoard_setCell (b : Board) (n : Nat) (hb : SquareBoard b n) (c : Cell) (v : Nat) :
    SquareBoard (setCell b c v) n := by
  obtain ⟨hlen, hrow⟩ := hb
  refine ⟨by simp [setCell, hlen], ?_⟩
  intro row hr
  unfold setCell at hr
  rcases Nat.lt_or_ge c.1 b.length with hlt | hge
  · rcases List.mem_or_eq_of_mem_set hr with h | rfl
    · exact hrow _ h
    · rw [List.length_set]
      rw [List.getD_eq_getElem?_getD, List.getElem?_eq_getElem hlt]
      exact hrow _ (List.getElem_mem hlt)
  · rw [List.set_eq_of_length_le hge] at hr
    exact hrow _ hr

theorem getCell_setCell_same (b : Board) (c : Cell) (v : Nat) (h : InB b c) :
    getCell (setCell b c v) c = v := by
  obtain ⟨h1, h2⟩ := h
  rw [List.getD_eq_getElem?_getD] at h2
  unfold getCell setCell
  simp only [List.getD_eq_getElem?_getD]
  rw [List.getElem?_set_self h1, Option.getD_some, List.getElem?_set_self h2, Option.getD_some]

theorem getCell_setCell_ne (b : Board) (c c2 : Cell) (v : Nat) (h : c2 ≠ c) :
    getCell (setCell b c v) c2 = getCell b c2 := by
  unfold getCell setCell
  simp only [List.getD_eq_getElem?_getD]
  rcases eq_or_ne c2.1 c.1 with heq | hne
  · have hcol : c2.2 ≠ c.2 := fun hc => h (Prod.ext heq hc)
    rw [heq]
    rcases Nat.lt_or_ge c.1 b.length with hlt | hge
    · rw [List.getElem?_set_self hlt, Option.getD_some, List.getElem?_set_ne hcol.symm]
    · rw [List.set_eq_of_length_le hge]
  · rw [List.getElem?_set_ne hne.symm]

theorem applyPath_cons (b : Board) (a : Cell) (p : List Cell) (k : Nat) :
    applyPath b (a :: p) k = applyPath (setCell b a k) p k := rfl

theorem applyPath_length (b : Board) (p : List Cell) (k : Nat) :
    (applyPath b p k).length = b.length := by
  induction p generalizing b with
  | nil => rfl
  | cons a p ih => rw [applyPath_cons, ih, setCell_length]

theorem applyPath_rowLength (b : Board) (p : List Cell) (k : Nat) (i : Nat) :
    ((applyPath b p k).getD i []).length = (b.getD i []).length := by
  induction p generalizing b with
  | nil => rfl
  | cons a p ih => rw [applyPath_cons, ih, setCell_rowLength]

theorem InB_setCell (b : Board) (c : Cell) (v : Nat) (c2 : Cell) :
    InB (setCell b c v) c2 ↔ InB b c2 := by
  unfold InB
  rw [setCell_length, setCell_rowLength]

theorem SquareBoard_applyPath (b : Board) (n : Nat) (hb : SquareBoard b n) (p : List Cell)
    (k : Nat) : SquareBoard (applyPath b p k) n := by
  induction p generalizing b with
  | nil => exact hb
  | cons a p ih => rw [applyPath_cons]; exact ih _ (SquareBoard_setCell b n hb a k)

theorem getCell_applyPath (b : Board) (p : List Cell) (k : Nat)
    (hp : ∀ c ∈ p, InB b c) (c : Cell) (hc : InB b c) :
    getCell (applyPath b p k) c = if c ∈ p then k else getCell b c := by
  induction p generalizing b with
  | nil => simp [applyPath]
  | cons a p ih =>
    rw [applyPath_cons]
    have hp2 : ∀ x ∈ p, InB (setCell b a k) x :=
      fun x hx => (InB_setCell b a k x).mpr (hp x (List.mem_cons_of_mem a hx))
    have hc2 : InB (setCell b a k) c := (InB_setCell b a k c).mpr hc
    rw [ih (setCell b a k) hp2 hc2]
    rcases Classical.em (c ∈ p) with hmem | hmem
    · simp [hmem, List.mem_cons_of_mem a hmem]
    · rcases eq_or_ne c a with rfl | hne
      · simp [hmem, getCell_setCell_same b c k (hp c (List.mem_cons_self c p))]
      · simp [hmem, hne, getCell_setCell_ne b a c k hne]

/-! ### Counting positive cells -/

theorem countP_update (l : List Cell) (hnd : l.Nodup) (c : Cell) (hc : c ∈ l)
    (q q2 : Cell → Bool) (hagree : ∀ x ∈ l, x ≠ c → q x = q2 x) :
    l.countP q2 + (if q c then 1 else 0) = l.countP q + (if q2 c then 1 else 0) := by
  induction l with
  | nil => cases hc
  | cons a l ih =>
    rcases List.mem_cons.mp hc with heq | hmem
    · subst heq
      have hna : c ∉ l := (List.nodup_cons.mp hnd).1
      have ht : l.countP q = l.countP q2 :=
        List.countP_congr fun x hx => by
          rw [hagree x (List.mem_cons_of_mem c hx) (fun he => hna (he ▸ hx))]
      rw [List.countP_cons, List.countP_cons, ht]
      omega
    · have hac : a ≠ c := fun he => (List.nodup_cons.mp hnd).1 (he ▸ hmem)
      have ha : q a = q2 a := hagree a (List.mem_cons_self a l) hac
      have hi := ih (List.nodup_cons.mp hnd).2 hmem
        (fun x hx hxc => hagree x (List.mem_cons_of_mem a hx) hxc)
      rw [List.countP_cons, List.countP_cons, ha]
      omega

theorem rmCells_congr_shape (b b2 : Board) (hlen : b.length = b2.length)
    (hrow : ∀ i, (b.getD i []).length = (b2.getD i []).length) :
    rmCells b = rmCells b2 := by
  rw [rmCells, rmCells, hlen, List.flatMap_def, List.flatMap_def]
  congr 1
  refine List.map_congr_left ?_
  intro i _
  rw [hrow i]

theorem rmCells_setCell (b : Board) (c : Cell) (v : Nat) :
    rmCells (setCell b c v) = rmCells b :=
  rmCells_congr_shape _ _ (setCell_length b c v) (setCell_rowLength b c v)

theorem posCount_le (b : Board) (n : Nat) (hb : SquareBoard b n) : posCount b ≤ n * n := by
  rw [posCount, ← length_rmCells b n hb]
  exact List.countP_le_length _

theorem posCount_setCell (b : Board) (c : Cell) (k : Nat) (hin : InB b c) (hk : 0 < k) :
    posCount (setCell b c k) = posCount b + (if getCell b c = 0 then 1 else 0) := by
  unfold posCount
  rw [rmCells_setCell]
  have hupd := countP_update (rmCells b) (nodup_rmCells b) c ((mem_rmCells b c).mpr hin)
    (fun x => decide (0 < getCell b x)) (fun x => decide (0 < getCell (setCell b c k) x))
    (fun x _ hx => by
      show decide (0 < getCell b x) = decide (0 < getCell (setCell b c k) x)
      rw [getCell_setCell_ne b c x k hx])
  have hnew : getCell (setCell b c k) c = k := getCell_setCell_same b c k hin
  simp only [hnew, decide_eq_true_eq] at hupd
  rw [if_pos hk] at hupd
  rcases Nat.eq_zero_or_pos (getCell b c) with hz | hp
  · rw [hz] at hupd
    rw [if_neg (lt_irrefl 0)] at hupd
    rw [if_pos hz]
    omega
  · rw [if_pos hp] at hupd
    rw [if_neg (by omega)]
    omega

theorem posCount_applyPath (b : Board) (p : List Cell) (k : Nat) (hnd : p.Nodup)
    (hin : ∀ c ∈ p, InB b c) (hk : 0 < k) :
    posCount (applyPath b p k) =
      posCount b + p.countP (fun c => decide (getCell b c = 0)) := by
  induction p generalizing b with
  | nil => simp [applyPath]
  | cons a p ih =>
    rw [applyPath_cons]
    have hnd2 := (List.nodup_cons.mp hnd).2
    have hna : a ∉ p := (List.nodup_cons.mp hnd).1
    have hin2 : ∀ c ∈ p, InB (setCell b a k) c :=
      fun c hc => (InB_setCell b a k c).mpr (hin c (List.mem_cons_of_mem a hc))
    rw [ih (setCell b a k) hnd2 hin2]
    have hcg : p.countP (fun c => decide (getCell (setCell b a k) c = 0)) =
        p.countP (fun c => decide (getCell b c = 0)) :=
      List.countP_congr fun x hx => by
        simp only [decide_eq_true_eq]
        rw [getCell_setCell_ne b a x k (fun he => hna (he ▸ hx))]
    rw [hcg, posCount_setCell b a k (hin a (List.mem_cons_self a p)) hk, List.countP_cons]
    simp only [decide_eq_true_eq]
    omega

/-- C10.  Frame property of `applyPath`: the returned board has the same
shape as the input, carries `number` on every path cell and the input's
value everywhere else.  (The embedding is pure, so the fact that the
JavaScript function does not mutate its argument — it writes into
`board.map(row => [...row])` — is reflected by `applyPath` being a function
of the input board.) -/
theorem C10_applyPath_frame (b : Board) (p : List Cell) (k : Nat)
    (hp : ∀ c ∈ p, InB b c) :
    (applyPath b p k).length = b.length ∧
      (∀ i, ((applyPath b p k).getD i []).length = (b.getD i []).length) ∧
      (∀ c, InB b c → getCell (applyPath b p k) c = if c ∈ p then k else getCell b c) :=
  ⟨applyPath_length b p k, applyPath_rowLength b p k, getCell_applyPath b p k hp⟩

/-- Witness for C10 at a concrete board and path. -/
theorem C10_applyPath_frame_witness :
    (∀ c ∈ [((0 : Nat), (0 : Nat)), (0, 1)], InB [[1, 0], [0, 2]] c) ∧
      ((applyPath [[1, 0], [0, 2]] [(0, 0), (0, 1)] 1).length = 2 ∧
        (∀ c, InB [[1, 0], [0, 2]] c →
          getCell (applyPath [[1, 0], [0, 2]] [(0, 0), (0, 1)] 1) c =
            if c ∈ [((0 : Nat), (0 : Nat)), (0, 1)] then 1 else getCell [[1, 0], [0, 2]] c)) := by
  have h := C10_applyPath_frame [[1, 0], [0, 2]] [(0, 0), (0, 1)] 1 (by decide)
  exact ⟨by decide, by rw [h.1]; rfl, h.2.2⟩

/-! ### Decidability of bounded cell quantification -/

def cellsN (n : Nat) : List Cell :=
  (List.range n).flatMap fun i => (List.range n).map fun j => (i, j)

theorem mem_cellsN (n : Nat) (c : Cell) : c ∈ cellsN n ↔ InBn n c := by
  obtain ⟨i, j⟩ := c
  simp only [cellsN, List.mem_flatMap, List.mem_map, List.mem_range, InBn]
  constructor
  · rintro ⟨i2, hi2, j2, hj2, heq⟩
    obtain ⟨rfl, rfl⟩ : i2 = i ∧ j2 = j := by
      constructor <;> [exact congrArg Prod.fst heq; exact congrArg Prod.snd heq]
    exact ⟨hi2, hj2⟩
  · rintro ⟨hi, hj⟩
    exact ⟨i, hi, j, hj, rfl⟩

instance decidableForallInBn (n : Nat) (P : Cell → Prop) [DecidablePred P] :
    Decidable (∀ c, InBn n c → P c) :=
  decidable_of_iff (∀ c ∈ cellsN n, P c)
    ⟨fun h c hc => h c ((mem_cellsN n c).mpr hc),
     fun h c hc => h c ((mem_cellsN n c).mp hc)⟩

/-! ### C9: the heuristic-BFS wire format -/

/-- The 16-letter alphabet of the claim, as characters (the `k`-th entry,
1-indexed, is `colorChars.getD (k - 1)`). -/
def colorChars : List Char :=
  ['R', 'B', 'Y', 'G', 'O', 'C', 'M', 'm', 'P', 'A', 'W', 'g', 'T', 'b', 'c', 'p']

theorem foldl_str_data {α : Type} (g : α → List Char) (l : List α)
    (f : String → α → String)
    (hf : ∀ (a : String), ∀ x ∈ l, (f a x).data = a.data ++ g x) (a : String) :
    (l.foldl f a).data = a.data ++ l.flatMap g := by
  induction l generalizing a with
  | nil => simp
  | cons x xs ih =>
    rw [List.foldl_cons,
      ih (fun a2 y hy => hf a2 y (List.mem_cons_of_mem x hy)),
      hf a x (List.mem_cons_self x xs)]
    simp

theorem flatMap_singleton_eq_map {α β : Type} (h : α → β) (l : List α) :
    (l.flatMap fun x => [h x]) = l.map h := by
  induction l with
  | nil => rfl
  | cons x xs ih => simp only [List.flatMap_cons, List.map_cons, List.singleton_append, ih]

theorem cellChar_data (v : Nat) (hv : v ≤ 16) :
    (if 0 < v ∧ v < COLOR_CHARS.length then COLOR_CHARS.getD v "" else ".").data
      = [if 0 < v then colorChars.getD (v - 1) '.' else '.'] := by
  interval_cases v <;> rfl

/-- C9.  On a square board whose colors lie in `[1, 16]`, the serializer of
`solveHeuristicBFS` emits exactly `N` newline-terminated lines of `N`
characters; the character for a cell carrying color `k` is the `k`-th entry
(1-indexed) of the fixed alphabet, and `'.'` for an empty cell.  (The cell
written at line `r`, column `c` is `board[c][r]`, per the serializer's
transposed indexing.) -/
theorem C9_wire_format (b : Board) (n : Nat) (hb : SquareBoard b n)
    (hcol : ∀ c, InBn n c → getCell b c ≤ 16) :
    (serializeBoard b).data = (List.range n).flatMap fun r =>
      ((List.range n).map fun c =>
        if 0 < getCell b (c, r) then colorChars.getD (getCell b (c, r) - 1) '.' else '.')
        ++ ['\n'] := by
  unfold serializeBoard
  rw [hb.1]
  rw [foldl_str_data (fun r => ((List.range n).map fun c =>
      if 0 < getCell b (c, r) then colorChars.getD (getCell b (c, r) - 1) '.' else '.')
      ++ ['\n'])]
  · rfl
  · intro a r hr
    rw [List.mem_range] at hr
    rw [String.data_append]
    rw [foldl_str_data (fun c => [if 0 < getCell b (c, r) then
        colorChars.getD (getCell b (c, r) - 1) '.' else '.'])]
    · rw [List.append_assoc]
      congr 1
      rw [flatMap_singleton_eq_map]
    · intro a2 c hc
      rw [List.mem_range] at hc
      rw [String.data_append, cellChar_data _ (hcol (c, r) ⟨hc, hr⟩)]

/-- Witness for C9 at a concrete board. -/
theorem C9_wire_format_witness :
    (SquareBoard [[1, 2], [3, 0]] 2 ∧ ∀ c, InBn 2 c → getCell [[1, 2], [3, 0]] c ≤ 16) ∧
      (serializeBoard [[1, 2], [3, 0]]).data = (List.range 2).flatMap fun r =>
        ((List.range 2).map fun c => if 0 < getCell [[1, 2], [3, 0]] (c, r) then
          colorChars.getD (getCell [[1, 2], [3, 0]] (c, r) - 1) '.' else '.') ++ ['\n'] :=
  ⟨⟨by decide, by decide⟩, C9_wire_format _ 2 (by decide) (by decide)⟩

instance instDecEqExcept {e a : Type} [DecidableEq e] [DecidableEq a] : DecidableEq (Except e a)
  | Except.error x, Except.error y =>
    if h : x = y then Decidable.isTrue (by rw [h])
    else Decidable.isFalse fun hh => h (by injection hh)
  | Except.error _, Except.ok _ => Decidable.isFalse fun hh => Except.noConfusion hh
  | Except.ok _, Except.error _ => Decidable.isFalse fun hh => Except.noConfusion hh
  | Except.ok x, Except.ok y =>
    if h : x = y then Decidable.isTrue (by rw [h])
    else Decidable.isFalse fun hh => h (by injection hh)

/-! ### Characterisation of `findPairs` -/

theorem fpAux_fst_some (b : Board) (k : Nat) (cs : List Cell) (s : Cell) :
    (fpAux b k cs (some s)).1 = some s := by
  induction cs with
  | nil => rfl
  | cons c cs ih =>
    rw [fpAux]
    split
    · rfl
    · exact ih

theorem fpAux_snd_some_isSome (b : Board) (k : Nat) (cs : List Cell) (s : Cell) :
    (fpAux b k cs (some s)).2.isSome = true ↔
      1 ≤ cs.countP fun c => decide (getCell b c = k) := by
  induction cs with
  | nil => simp [fpAux]
  | cons c cs ih =>
    rw [fpAux, List.countP_cons]
    by_cases hc : getCell b c = k
    · simp [hc]
    · simp [hc, ih]

theorem fpAux_snd_none_isSome (b : Board) (k : Nat) (cs : List Cell) :
    (fpAux b k cs none).2.isSome = true ↔
      2 ≤ cs.countP fun c => decide (getCell b c = k) := by
  induction cs with
  | nil => simp [fpAux]
  | cons c cs ih =>
    rw [fpAux, List.countP_cons]
    by_cases hc : getCell b c = k
    · rw [if_pos hc]
      rw [fpAux_snd_some_isSome]
      simp [hc]
    · simp [hc, ih]

theorem fpAux_fst_none_isSome (b : Board) (k : Nat) (cs : List Cell) :
    (fpAux b k cs none).1.isSome = true ↔
      1 ≤ cs.countP fun c => decide (getCell b c = k) := by
  induction cs with
  | nil => simp [fpAux]
  | cons c cs ih =>
    rw [fpAux, List.countP_cons]
    by_cases hc : getCell b c = k
    · simp [hc, fpAux_fst_some]
    · simp [hc, ih]

theorem findPairs_isSome_iff (b : Board) (k : Nat) :
    ((findPairs b k).1.isSome && (findPairs b k).2.isSome) = true ↔ 2 ≤ countOcc b k := by
  unfold findPairs countOcc
  rw [Bool.and_eq_true, fpAux_fst_none_isSome, fpAux_snd_none_isSome]
  omega

/-- The validation loop of `solveBoard` succeeds iff every color in
`[1, maxColor]` occurs at least twice. -/
theorem solveBoard_validation (B : Board) :
    ((List.range (maxColor B)).all fun i =>
        (findPairs B (i + 1)).1.isSome && (findPairs B (i + 1)).2.isSome) = true ↔
      ∀ k, 1 ≤ k → k ≤ maxColor B → 2 ≤ countOcc B k := by
  rw [List.all_eq_true]
  constructor
  · intro h k h1 h2
    have := h (k - 1) (by rw [List.mem_range]; omega)
    rw [findPairs_isSome_iff] at this
    have hk : k - 1 + 1 = k := by omega
    rwa [hk] at this
  · intro h i hi
    rw [List.mem_range] at hi
    rw [findPairs_isSome_iff]
    exact h (i + 1) (by omega) (by omega)

/-- C4 (amended).  The code rejects (by a thrown error, which `solve`'s
catch converts to the zero envelope) exactly the boards on which some color
in `[1, maxColor]` occurs fewer than two times; a color occurring more than
twice is not rejected. -/
theorem C4_validation_amended (B : Board) (timer : Nat → Bool) (fuel : Nat) :
    solveBoard B timer fuel = Except.error () ↔
      ∃ k, 1 ≤ k ∧ k ≤ maxColor B ∧ countOcc B k < 2 := by
  unfold solveBoard
  split
  · rename_i hall
    rw [solveBoard_validation] at hall
    constructor
    · intro h; cases h
    · rintro ⟨k, h1, h2, h3⟩
      exact absurd (hall k h1 h2) (by omega)
  · rename_i hall
    constructor
    · intro _
      by_contra hne
      push_neg at hne
      exact hall ((solveBoard_validation B).mpr fun k h1 h2 => by
        have := hne k h1 h2
        omega)
    · intro _; rfl

/-- C4 counterexample: on `[[1,1],[1,0]]` color `1` occurs three times — an
odd count and more than two — yet `solveBoard` does not fail with the
validation error: it runs the search and returns the no-solution result
`[null, 1]`, indistinguishable in the envelope from search exhaustion. -/
theorem C4_counterexample :
    countOcc [[1, 1], [1, 0]] 1 = 3 ∧
      solveBoard [[1, 1], [1, 0]] (fun _ => false) 100 =
        Except.ok (some (none, 1)) := by
  constructor
  · decide
  · decide

/-! ### C6: timeout result contents -/

/-- C6 (amended).  When the per-dequeue deadline check fires, the thrown
timeout is caught by `solveBoard`'s catch, and the envelope returned by
`solve` carries no board and node count `0`: the node count accumulated up
to the expiry (carried here on the exception as instrumentation) is
discarded by the catch, which returns the never-updated outer `nodeCount`
variable. -/
theorem C6_timeout_amended (B : Board) (timer : Nat → Bool) (fuel tEnd nc : Nat)
    (hval : ((List.range (maxColor B)).all fun i =>
      (findPairs B (i + 1)).1.isSome && (findPairs B (i + 1)).2.isSome) = true)
    (hn : ¬ B.length = 0)
    (ht : explorePathsForNumber fuel B 0 1 (pairsOf B) (maxColor B) 0 0 timer =
      some (Except.error (XErr.timeout nc))) :
    solve (some B) timer fuel tEnd =
      some { board := none, timedOut := decide (14900 ≤ tEnd), timeTaken := tEnd,
             nodeCount := 0 } := by
  have hsb : solveBoard B timer fuel = Except.ok (some (none, 0)) := by
    unfold solveBoard
    rw [if_pos hval, ht]
  unfold solve solveRaw
  simp only [if_neg hn, hsb]
  simp

/-- Witness for C6 (amended) at a concrete board and timer oracle. -/
theorem C6_timeout_amended_witness :
    (((List.range (maxColor [[1, 0], [0, 1]])).all fun i =>
        (findPairs [[1, 0], [0, 1]] (i + 1)).1.isSome &&
          (findPairs [[1, 0], [0, 1]] (i + 1)).2.isSome) = true ∧
      ¬ ([[1, 0], [0, 1]] : Board).length = 0 ∧
      explorePathsForNumber 100 [[1, 0], [0, 1]] 0 1 (pairsOf [[1, 0], [0, 1]])
        (maxColor [[1, 0], [0, 1]]) 0 0 (fun t => decide (4 ≤ t)) =
        some (Except.error (XErr.timeout 1))) ∧
    solve (some [[1, 0], [0, 1]]) (fun t => decide (4 ≤ t)) 100 0 =
      some { board := none, timedOut := decide (14900 ≤ (0 : Nat)), timeTaken := 0,
             nodeCount := 0 } :=
  ⟨⟨by decide, by decide, by decide⟩,
    C6_timeout_amended [[1, 0], [0, 1]] (fun t => decide (4 ≤ t)) 100 0 1
      (by decide) (by decide) (by decide)⟩

/-- C6 counterexample: on `[[1,0],[0,1]]` with the deadline expiring at the
fifth dequeue, the search had already accumulated node count `1` at the
moment of the throw (the instrumented value on the exception), yet the
returned envelope reports node count `0`, not the partial count. -/
theorem C6_counterexample :
    explorePathsForNumber 100 [[1, 0], [0, 1]] 0 1 (pairsOf [[1, 0], [0, 1]]) 1 0 0
        (fun t => decide (4 ≤ t)) = some (Except.error (XErr.timeout 1)) ∧
      solve (some [[1, 0], [0, 1]]) (fun t => decide (4 ≤ t)) 100 15000 =
        some { board := none, timedOut := true, timeTaken := 15000, nodeCount := 0 } ∧
      (1 : Nat) ≠ 0 := by
  refine ⟨by decide, by decide, by decide⟩

/-! ### C7: exception containment at the dispatcher boundary -/

/-- C7.  Whatever the raw pipeline does — return an envelope or raise an
exception (an `Except.error` of `solveRaw`) — `solve` returns a
`SolveResult` envelope: exceptions are converted to the zero envelope by
the catch, null and empty inputs are answered directly, and the exceptional
case genuinely occurs (a board failing pair validation makes the raw
pipeline raise). -/
theorem C7_dispatcher_envelope :
    (∀ input timer fuel tEnd e, solveRaw input timer fuel tEnd = some (Except.error e) →
        solve input timer fuel tEnd = some zeroEnv) ∧
      (∀ input timer fuel tEnd r, solveRaw input timer fuel tEnd = some (Except.ok r) →
        solve input timer fuel tEnd = some r) ∧
      (∀ timer fuel tEnd, solve none timer fuel tEnd = some zeroEnv ∧
        solve (some []) timer fuel tEnd = some zeroEnv) ∧
      (∃ (B : Board) (e : Unit), solveRaw (some B) (fun _ => false) 1 0 =
        some (Except.error e)) := by
  refine ⟨?_, ?_, ?_, ?_⟩
  · intro input timer fuel tEnd e h
    unfold solve
    rw [h]
  · intro input timer fuel tEnd r h
    unfold solve
    rw [h]
  · intro timer fuel tEnd
    exact ⟨rfl, rfl⟩
  · exact ⟨[[1, 0], [0, 0]], (), by decide⟩

/-- Witness for C7 at a concrete exception-raising input. -/
theorem C7_dispatcher_envelope_witness :
    solveRaw (some [[1, 0], [0, 0]]) (fun _ => false) 1 0 = some (Except.error ()) ∧
      solve (some [[1, 0], [0, 0]]) (fun _ => false) 1 0 = some zeroEnv :=
  ⟨by decide, C7_dispatcher_envelope.1 (some [[1, 0], [0, 0]]) (fun _ => false) 1 0 ()
    (by decide)⟩

/-! ### C3 and C8: the `aStar` counterexamples -/

/-- A board on which `aStar` over-estimates: three blocked cells on a 5×5
grid. -/
def cexBoard : Board :=
  [[0, 0, 0, 0, 0], [0, 0, 0, 1, 0], [0, 0, 0, 0, 0], [0, 0, 0, 1, 1], [0, 0, 0, 0, 0]]

/-- A 7-edge open path from `(0,3)` to `(4,4)` on `cexBoard`. -/
def cexPath : List Cell :=
  [(0, 3), (0, 2), (1, 2), (2, 2), (3, 2), (4, 2), (4, 3), (4, 4)]

/-- C3 counterexample: on `cexBoard` the implementation returns `9` although
a valid 7-edge open path from `(0,3)` to `(4,4)` exists, so `aStar` does
not return the minimum open distance (the generation-time closing of cells
under the heap's tie order assigns the cell `(2,2)` a suboptimal distance). -/
theorem C3_counterexample :
    aStar cexBoard (0, 3) (4, 4) = some 9 ∧
      isOpenPath cexBoard (0, 3) (4, 4) cexPath ∧
      cexPath.length = 8 ∧
      ¬∃ d, aStar cexBoard (0, 3) (4, 4) = some d ∧
        ∀ p, isOpenPath cexBoard (0, 3) (4, 4) p → d ≤ p.length - 1 := by
  refine ⟨by decide, by decide, by decide, ?_⟩
  rintro ⟨d, hd, hmin⟩
  have h9 : aStar cexBoard (0, 3) (4, 4) = some 9 := by decide
  rw [h9] at hd
  obtain rfl : (9 : Nat) = d := by injection hd
  have h7 := hmin cexPath (by decide)
  have h8 : cexPath.length = 8 := by decide
  omega

/-- C8 counterexample: `minDist = aStar(...) = 9` on `cexBoard`, yet the
completed simple path `cexPath` over empty cells has only `8` cells, so the
lower-bound gate `minDist ≤ path.length` discards it: the gate is not
harmless for completed paths, because `aStar` can over-estimate. -/
theorem C8_counterexample :
    isOpenPath cexBoard (0, 3) (4, 4) cexPath ∧
      aStar cexBoard (0, 3) (4, 4) = some 9 ∧
      cexPath.length = 8 ∧ ¬((9 : Nat) ≤ 8) := by
  refine ⟨by decide, by decide, by decide, by decide⟩

/-- C8 (amended).  The gate holds by construction: a dequeued completed
path failing `minDist ≤ path.length` is skipped — the loop continues on the
remaining queue with nothing recursed, recorded or counted.  (By the
counterexample above, the second half of the original claim — that the
gate can never discard a completed path — is false.) -/
theorem C8_gate_amended (board : Board) (sumPath number : Nat)
    (pairs : Nat → Option (Option Cell × Option Cell)) (minDist : Nat) (endCell : Cell)
    (rec : Board → Nat → Nat → Nat → ERes) (timer : Nat → Bool) (fuel : Nat)
    (cx cy : Nat) (path : List Cell) (rest : List QEntry)
    (visitedPaths : List (List Cell)) (nodeCount tick : Nat)
    (hend : cx = endCell.1 ∧ cy = endCell.2) (hgate : ¬ minDist ≤ path.length)
    (htimer : timer tick = false) :
    exploreLoop board sumPath number pairs minDist endCell rec timer (fuel + 1)
        ((cx, cy, path) :: rest) visitedPaths nodeCount tick =
      exploreLoop board sumPath number pairs minDist endCell rec timer fuel rest
        visitedPaths nodeCount (tick + 1) := by
  simp only [exploreLoop, htimer, Bool.false_eq_true, if_false, if_pos hend, if_neg hgate]

/-- Witness for C8 (amended) at concrete arguments. -/
theorem C8_gate_amended_witness :
    (((0 : Nat) = ((0 : Nat), (0 : Nat)).1 ∧ (0 : Nat) = ((0 : Nat), (0 : Nat)).2) ∧
      ¬ (5 : Nat) ≤ ([((0 : Nat), (0 : Nat))] : List Cell).length ∧
      (fun _ : Nat => false) 0 = false) ∧
    exploreLoop [[0]] 0 1 (fun _ => none) 5 (0, 0) (fun _ _ _ _ => none)
        (fun _ => false) 3 [(0, 0, [(0, 0)])] [] 0 0 =
      exploreLoop [[0]] 0 1 (fun _ => none) 5 (0, 0) (fun _ _ _ _ => none)
        (fun _ => false) 2 [] [] 0 1 :=
  ⟨⟨⟨rfl, rfl⟩, by decide, rfl⟩,
    C8_gate_amended [[0]] 0 1 (fun _ => none) 5 (0, 0) (fun _ _ _ _ => none)
      (fun _ => false) 2 0 0 [(0, 0)] [] [] 0 0 ⟨rfl, rfl⟩ (by decide) rfl⟩

/-! ### C5: round-trip on solved boards -/

/-- Modelled from the spec (§3, Solution Board): the cells labelled `k`
form a simple path — listed in order by `p`, with no further same-color
adjacencies (so interior cells have exactly two same-color neighbours and
the extremes exactly one). -/
def colorClassIsPath (b : Board) (k : Nat) : Prop :=
  ∃ p : List Cell, p.Nodup ∧ chainAdj p = true ∧ 2 ≤ p.length ∧
    (∀ c ∈ p, InBn b.length c ∧ getCell b c = k) ∧
    (∀ c, InBn b.length c → getCell b c = k → c ∈ p) ∧
    (∀ i j : Fin p.length, adjacentCells (p.get i) (p.get j) →
      (i.val + 1 = j.val ∨ j.val + 1 = i.val))

/-- Modelled from the spec (§3): a fully-labelled solved board — every cell
positive and every color present forming a simple path. -/
def SolvedBoard (b : Board) : Prop :=
  (∀ c, InBn b.length c → 0 < getCell b c) ∧
    ∀ k, 0 < k → (∃ c, InBn b.length c ∧ getCell b c = k) → colorClassIsPath b k

/-- C5 counterexample: the board below is fully labelled and solved (color
`1` is the left column, a 3-cell path; colors `2`, `3`, `4` are 2-cell
paths), yet `solve` returns a null board on it: `findPairs` takes the first
two row-major occurrences of color `1` — `(0,0)` and `(1,0)`, not the
path's true extremes — and the search then strands the cell `(2,0)`. -/
theorem C5_counterexample :
    SolvedBoard [[1, 2, 2], [1, 3, 3], [1, 4, 4]] ∧
      solve (some [[1, 2, 2], [1, 3, 3], [1, 4, 4]]) (fun _ => false) 200 0 =
        some { board := none, timedOut := false, timeTaken := 0, nodeCount := 4 } ∧
      (none : Option Board) ≠ some [[1, 2, 2], [1, 3, 3], [1, 4, 4]] := by
  refine ⟨⟨by decide, ?_⟩, by decide, by decide⟩
  intro k hk hex
  obtain ⟨c, hcin, hcv⟩ := hex
  have hc2 : c ∈ cellsN 3 := (mem_cellsN 3 c).mpr hcin
  fin_cases hc2 <;> rw [← hcv]
  · exact ⟨[(0, 0), (1, 0), (2, 0)], by decide⟩
  · exact ⟨[(0, 1), (0, 2)], by decide⟩
  · exact ⟨[(0, 1), (0, 2)], by decide⟩
  · exact ⟨[(0, 0), (1, 0), (2, 0)], by decide⟩
  · exact ⟨[(1, 1), (1, 2)], by decide⟩
  · exact ⟨[(1, 1), (1, 2)], by decide⟩
  · exact ⟨[(0, 0), (1, 0), (2, 0)], by decide⟩
  · exact ⟨[(2, 1), (2, 2)], by decide⟩
  · exact ⟨[(2, 1), (2, 2)], by decide⟩

/-! ### Facts about the cells returned by `findPairs` -/

theorem fpAux_with_start (b : Board) (k : Nat) (cs : List Cell) (s : Cell)
    (a2 : Option Cell) (e2 : Option Cell)
    (h : fpAux b k cs (some s) = (a2, e2)) :
    a2 = some s ∧ ∀ e, e2 = some e → e ∈ cs ∧ getCell b e = k := by
  induction cs generalizing a2 e2 with
  | nil =>
    rw [fpAux] at h
    obtain ⟨rfl, rfl⟩ : a2 = some s ∧ e2 = none := by
      constructor <;> [exact (congrArg Prod.fst h).symm; exact (congrArg Prod.snd h).symm]
    exact ⟨rfl, fun e he => by cases he⟩
  | cons c cs ih =>
    rw [fpAux] at h
    by_cases hc : getCell b c = k
    · rw [if_pos hc] at h
      obtain ⟨rfl, rfl⟩ : a2 = some s ∧ e2 = some c := by
        constructor <;> [exact (congrArg Prod.fst h).symm; exact (congrArg Prod.snd h).symm]
      refine ⟨rfl, fun e he => ?_⟩
      obtain rfl : c = e := by injection he
      exact ⟨List.mem_cons_self c cs, hc⟩
    · rw [if_neg hc] at h
      obtain ⟨h1, h2⟩ := ih _ _ h
      exact ⟨h1, fun e he => by
        obtain ⟨hm, hv⟩ := h2 e he
        exact ⟨List.mem_cons_of_mem c hm, hv⟩⟩

theorem fpAux_from_none (b : Board) (k : Nat) (cs : List Cell) (a : Cell)
    (e2 : Option Cell) (h : fpAux b k cs none = (some a, e2)) :
    getCell b a = k ∧ ∃ pre post, cs = pre ++ a :: post ∧
      fpAux b k post (some a) = (some a, e2) := by
  induction cs with
  | nil =>
    rw [fpAux] at h
    exact absurd (congrArg Prod.fst h).symm (by simp)
  | cons c cs ih =>
    rw [fpAux] at h
    by_cases hc : getCell b c = k
    · rw [if_pos hc] at h
      have hfst := (fpAux_with_start b k cs c _ _ h).1
      obtain rfl : c = a := by
        injection hfst with hh
        exact hh.symm
      exact ⟨hc, [], cs, rfl, h⟩
    · rw [if_neg hc] at h
      obtain ⟨hv, pre, post, hsplit, hrest⟩ := ih h
      exact ⟨hv, c :: pre, post, by rw [hsplit]; rfl, hrest⟩

/-- The two cells returned by a successful `findPairs` carry the color `k`,
are distinct, and are genuine board cells. -/
theorem findPairs_facts (B : Board) (k : Nat) (a e : Cell)
    (h : findPairs B k = (some a, some e)) :
    getCell B a = k ∧ getCell B e = k ∧ a ≠ e ∧ InB B a ∧ InB B e := by
  unfold findPairs at h
  obtain ⟨hva, pre, post, hsplit, hrest⟩ := fpAux_from_none B k _ a _ h
  obtain ⟨_, hsnd⟩ := fpAux_with_start B k post a _ _ hrest
  obtain ⟨hmem, hve⟩ := hsnd e rfl
  have hnd : (rmCells B).Nodup := nodup_rmCells B
  rw [hsplit] at hnd
  have hnotin : a ∉ post := by
    have := (List.nodup_middle.mp hnd)
    rw [List.nodup_cons] at this
    intro hin
    exact this.1 (List.mem_append_right pre hin)
  have hane : a ≠ e := fun heq => hnotin (heq ▸ hmem)
  have hina : a ∈ rmCells B := by rw [hsplit]; exact List.mem_append_right pre (List.mem_cons_self a post)
  have hine : e ∈ rmCells B := by
    rw [hsplit]
    exact List.mem_append_right pre (List.mem_cons_of_mem a hmem)
  exact ⟨hva, hve, hane, (mem_rmCells B a).mp hina, (mem_rmCells B e).mp hine⟩

theorem pairsOf_some (B : Board) (k : Nat) (pr : Option Cell × Option Cell)
    (h : pairsOf B k = some pr) :
    1 ≤ k ∧ k ≤ maxColor B ∧ findPairs B k = pr := by
  unfold pairsOf at h
  split at h
  · rename_i hk
    exact ⟨hk.1, hk.2, by injection h⟩
  · cases h

theorem pairsOf_isSome_iff (B : Board) (k : Nat) :
    (pairsOf B k).isSome = true ↔ 1 ≤ k ∧ k ≤ maxColor B := by
  unfold pairsOf
  split
  · simp_all
  · simp_all

/-! ### Lower bound on the number of positive cells after validation -/

theorem countP_split_or (l : List Cell) (q q2 : Cell → Bool)
    (hdisj : ∀ x ∈ l, ¬(q x = true ∧ q2 x = true)) :
    l.countP (fun x => q x || q2 x) = l.countP q + l.countP q2 := by
  induction l with
  | nil => rfl
  | cons a l ih =>
    simp only [List.countP_cons]
    rw [ih (fun x hx => hdisj x (List.mem_cons_of_mem a hx))]
    have := hdisj a (List.mem_cons_self a l)
    cases hq : q a <;> cases hq2 : q2 a <;> simp_all <;> omega

theorem posCount_lower_aux (B : Board) (m : Nat)
    (hocc : ∀ k, 1 ≤ k → k ≤ m → 2 ≤ countOcc B k) :
    2 * m ≤ (rmCells B).countP fun c =>
      decide (1 ≤ getCell B c ∧ getCell B c ≤ m) := by
  induction m with
  | zero => omega
  | succ m ih =>
    have hsp : (rmCells B).countP (fun c => decide (1 ≤ getCell B c ∧ getCell B c ≤ m + 1))
        = (rmCells B).countP (fun c => decide (1 ≤ getCell B c ∧ getCell B c ≤ m))
          + countOcc B (m + 1) := by
      rw [countOcc]
      rw [← countP_split_or (rmCells B)
        (fun c => decide (1 ≤ getCell B c ∧ getCell B c ≤ m))
        (fun c => decide (getCell B c = m + 1))
        (fun x _ => by simp only [decide_eq_true_eq]; omega)]
      refine List.countP_congr fun c _ => ?_
      simp only [Bool.or_eq_true, decide_eq_true_eq]
      omega
    rw [hsp]
    have h1 := ih fun k hk1 hk2 => hocc k hk1 (by omega)
    have h2 := hocc (m + 1) (by omega) (le_refl _)
    omega

theorem posCount_lower (B : Board)
    (hocc : ∀ k, 1 ≤ k → k ≤ maxColor B → 2 ≤ countOcc B k) :
    2 * maxColor B ≤ posCount B := by
  have h1 := posCount_lower_aux B (maxColor B) hocc
  have h2 : (rmCells B).countP (fun c =>
      decide (1 ≤ getCell B c ∧ getCell B c ≤ maxColor B)) ≤ posCount B := by
    refine List.countP_mono_left fun c _ h => ?_
    simp only [decide_eq_true_eq] at h ⊢
    omega
  omega

theorem posCount_full (S : Board) (n : Nat) (hS : SquareBoard S n)
    (h : posCount S = n * n) : ∀ c, InBn n c → 0 < getCell S c := by
  intro c hc
  have hlen := length_rmCells S n hS
  have hall : ∀ c ∈ rmCells S, (fun c => decide (0 < getCell S c)) c = true :=
    List.countP_eq_length.mp (by rw [posCount] at h; rw [h, hlen])
  have hmem : c ∈ rmCells S := (mem_rmCells S c).mpr ((InB_iff_InBn S n hS c).mpr hc)
  simpa using hall c hmem

/-! ### The search invariant: preservation and totality (C1 and C2) -/

/-- `b` agrees with the original board `B` on every positive cell of `B`. -/
def agrees (B b : Board) : Prop :=
  ∀ c : Cell, 0 < getCell B c → getCell b c = getCell B c

/-- The queue invariant of the path-enumeration BFS: every queued partial
path starts at the color's start cell, ends at the entry's coordinates, has
no repeats, stays in bounds, and its cells after the head were empty or the
target when pushed. -/
def QInv (n : Nat) (b : Board) (startC endC : Cell) (q : QEntry) : Prop :=
  q.2.2.head? = some startC ∧ q.2.2.getLast? = some (q.1, q.2.1) ∧ q.2.2.Nodup ∧
    (∀ c ∈ q.2.2, InBn n c) ∧ ∀ c ∈ q.2.2.tail, getCell b c = 0 ∨ c = endC

theorem InB_of_getCell_pos (b : Board) (c : Cell) (h : 0 < getCell b c) : InB b c := by
  by_contra hn
  unfold InB at hn
  push_neg at hn
  unfold getCell at h
  rcases Nat.lt_or_ge c.1 b.length with h1 | h1
  · have h2 := hn h1
    rw [List.getD_eq_getElem?_getD (b.getD c.1 []), List.getElem?_eq_none h2] at h
    simp at h
  · rw [List.getD_eq_getElem?_getD b, List.getElem?_eq_none h1] at h
    simp at h

theorem countP_eq_cell_le_one (l : List Cell) (hnd : l.Nodup) (e : Cell) :
    l.countP (fun c => decide (c = e)) ≤ 1 := by
  induction l with
  | nil => simp
  | cons a l ih =>
    rw [List.countP_cons]
    obtain ⟨hna, hnd2⟩ := List.nodup_cons.mp hnd
    by_cases ha : a = e
    · subst ha
      have hz : l.countP (fun c => decide (c = a)) = 0 := by
        rw [List.countP_eq_zero]
        intro c hc
        simp only [decide_eq_true_eq]
        rintro rfl
        exact hna hc
      simp [hz]
    · have := ih hnd2
      simp only [decide_eq_true_eq]
      rw [if_neg ha]
      omega

theorem path_nonzero_le_two (board : Board) (startC endC : Cell) (p : List Cell)
    (hhead : p.head? = some startC) (hnd : p.Nodup)
    (htail : ∀ c ∈ p.tail, getCell board c = 0 ∨ c = endC) :
    p.countP (fun c => decide (0 < getCell board c)) ≤ 2 := by
  obtain ⟨tl, rfl⟩ := List.head?_eq_some_iff.mp hhead
  rw [List.countP_cons]
  have htl : ∀ c ∈ tl, getCell board c = 0 ∨ c = endC := htail
  have h1 : tl.countP (fun c => decide (0 < getCell board c)) ≤
      tl.countP (fun c => decide (c = endC)) := by
    refine List.countP_mono_left fun c hc h => ?_
    simp only [decide_eq_true_eq] at h ⊢
    rcases htl c hc with h0 | he
    · omega
    · exact he
  have h2 := countP_eq_cell_le_one tl (List.nodup_cons.mp hnd).2 endC
  have h3 : (if decide (0 < getCell board startC) = true then 1 else 0) ≤ 1 := by
    split <;> omega
  omega

theorem countP_zero_add_pos (board : Board) (p : List Cell) :
    p.length = p.countP (fun c => decide (0 < getCell board c))
      + p.countP (fun c => decide (getCell board c = 0)) := by
  rw [List.length_eq_countP_add_countP (fun c => decide (0 < getCell board c))]
  congr 1
  refine List.countP_congr fun c _ => ?_
  simp only [decide_eq_true_eq]
  omega

/-- The combined effect of applying a completed path: shape preserved,
agreement with the original board preserved, and the positive-cell count
grows by at least `path.length - 2`. -/
theorem complete_path_step (B : Board) (n : Nat) (k : Nat) (board : Board)
    (startC endC : Cell) (path : List Cell)
    (hB : SquareBoard B n) (hb : SquareBoard board n) (hag : agrees B board)
    (hk1 : 1 ≤ k)
    (hvs : getCell B startC = k) (hve : getCell B endC = k)
    (hhead : path.head? = some startC) (hnd : path.Nodup)
    (hinb : ∀ c ∈ path, InBn n c)
    (htail : ∀ c ∈ path.tail, getCell board c = 0 ∨ c = endC) :
    SquareBoard (applyPath board path k) n ∧ agrees B (applyPath board path k) ∧
      posCount board + path.length ≤ posCount (applyPath board path k) + 2 := by
  have hinB : ∀ c ∈ path, InB board c :=
    fun c hc => (InB_iff_InBn board n hb c).mpr (hinb c hc)
  have hsq := SquareBoard_applyPath board n hb path k
  have hpos := posCount_applyPath board path k hnd hinB (by omega)
  have hle2 := path_nonzero_le_two board startC endC path hhead hnd htail
  have hsplit := countP_zero_add_pos board path
  refine ⟨hsq, ?_, by omega⟩
  intro c hcpos
  have hcn : InBn n c := (InB_iff_InBn B n hB c).mp (InB_of_getCell_pos B c hcpos)
  have hcb : InB board c := (InB_iff_InBn board n hb c).mpr hcn
  rw [getCell_applyPath board path k hinB c hcb]
  by_cases hcp : c ∈ path
  · rw [if_pos hcp]
    obtain ⟨tl, rfl⟩ := List.head?_eq_some_iff.mp hhead
    rcases List.mem_cons.mp hcp with rfl | hctl
    · exact hvs.symm
    · rcases htail c hctl with h0 | rfl
      · have := hag c hcpos
        omega
      · exact hve.symm
  · rw [if_neg hcp]
    exact hag c hcpos

/-- `extendPaths` preserves the queue invariant. -/
theorem extendPaths_inv (board : Board) (n : Nat) (hb : SquareBoard board n)
    (startC endC : Cell) (cx cy : Nat) (p : List Cell)
    (hq : QInv n board startC endC (cx, cy, p)) :
    ∀ (ds : List (Int × Int)) (q : List QEntry),
      (∀ e ∈ q, QInv n board startC endC e) →
      ∀ e ∈ extendPaths board endC cx cy p ds q, QInv n board startC endC e := by
  intro ds
  induction ds with
  | nil => intro q hq2 e he; exact hq2 e he
  | cons d ds ih =>
    intro q hq2 e he
    obtain ⟨dx, dy⟩ := d
    rw [extendPaths] at he
    split at he
    · rename_i hbnd
      split at he
      · exact ih q hq2 e he
      · rename_i hnotin
        split at he
        · rename_i hopen
          refine ih _ ?_ e he
          intro e2 he2
          rcases List.mem_append.mp he2 with h2 | h2
          · exact hq2 e2 h2
          · obtain rfl : e2 = (((cx : Int) + dx).toNat, ((cy : Int) + dy).toNat,
                p ++ [(((cx : Int) + dx).toNat, ((cy : Int) + dy).toNat)]) := by
              simpa using h2
            obtain ⟨hhead, hlast, hnd, hinb, htail⟩ := hq
            have hpne : p ≠ [] := by
              obtain ⟨tl, rfl⟩ := List.head?_eq_some_iff.mp hhead
              exact List.cons_ne_nil _ _
            have hrow0 : 0 < board.length → ((board.getD 0 []).length : Int) = (n : Int) := by
              intro hpos
              rw [rowLength_of_square board n hb 0 hpos]
            have hcin : InBn n (((cx : Int) + dx).toNat, ((cy : Int) + dy).toNat) := by
              obtain ⟨hb1, hb2, hb3, hb4⟩ := hbnd
              have hlen : (board.length : Int) = (n : Int) := by rw [hb.1]
              have hpos : 0 < board.length := by omega
              have := hrow0 hpos
              constructor
              · simp only []
                omega
              · simp only []
                omega
            refine ⟨?_, ?_, ?_, ?_, ?_⟩
            · rw [List.head?_append]
              rw [hhead]
              rfl
            · exact List.getLast?_concat p
            · refine (List.nodup_middle).mpr ?_
              rw [List.nodup_cons]
              exact ⟨by simpa using hnotin, by simpa using hnd⟩
            · intro c hc
              rcases List.mem_append.mp hc with h3 | h3
              · exact hinb c h3
              · obtain rfl : c = (((cx : Int) + dx).toNat, ((cy : Int) + dy).toNat) := by
                  simpa using h3
                exact hcin
            · rw [List.tail_append_of_ne_nil hpne]
              intro c hc
              rcases List.mem_append.mp hc with h3 | h3
              · exact htail c h3
              · obtain rfl : c = (((cx : Int) + dx).toNat, ((cy : Int) + dy).toNat) := by
                  simpa using h3
                exact hopen
        · exact ih q hq2 e he
    · exact ih q hq2 e he

/-- Main invariant lemma for the BFS loop: any solved board returned
through it (including through the recursive descents captured by `hrec`)
has full positive-cell count, preserved shape, and agrees with the original
board on its positive cells. -/
theorem exploreLoop_main (B : Board) (n : Nat) (timer : Nat → Bool)
    (k : Nat) (startC endC : Cell)
    (hB : SquareBoard B n)
    (hk1 : 1 ≤ k) (hk2 : k ≤ maxColor B)
    (hfp : findPairs B k = (some startC, some endC))
    (board : Board) (sum : Nat) (minDist : Nat)
    (hb : SquareBoard board n) (hag : agrees B board)
    (hcount : sum + 2 * (maxColor B + 1 - k) ≤ posCount board)
    (rec : Board → Nat → Nat → Nat → ERes)
    (hrec : ∀ b2 s2 nc2 t2 S2 nc3 t3,
      SquareBoard b2 n → agrees B b2 →
      s2 + 2 * (maxColor B + 1 - (k + 1)) ≤ posCount b2 →
      rec b2 s2 nc2 t2 = some (Except.ok (some S2, nc3, t3)) →
      SquareBoard S2 n ∧ agrees B S2 ∧ posCount S2 = n * n) :
    ∀ (fuel : Nat) (queue : List QEntry) (visited : List (List Cell)) (nc tick : Nat)
      (S : Board) (nc2 tick2 : Nat),
      (∀ q ∈ queue, QInv n board startC endC q) →
      exploreLoop board sum k (pairsOf B) minDist endC rec timer fuel queue visited
        nc tick = some (Except.ok (some S, nc2, tick2)) →
      SquareBoard S n ∧ agrees B S ∧ posCount S = n * n := by
  intro fuel
  induction fuel with
  | zero =>
    intro queue visited nc tick S nc2 tick2 _ h
    exact Option.noConfusion h
  | succ fuel ih =>
    intro queue visited nc tick S nc2 tick2 hqinv h
    rcases queue with _ | ⟨⟨cx, cy, path⟩, rest⟩
    · rw [exploreLoop] at h
      simp at h
    · rw [exploreLoop] at h
      by_cases htim : timer tick = true
      · rw [if_pos htim] at h
        simp at h
      · rw [if_neg htim] at h
        by_cases hend : cx = endC.1 ∧ cy = endC.2
        · rw [if_pos hend] at h
          by_cases hgate : minDist ≤ path.length
          · rw [if_pos hgate] at h
            by_cases hdup : path ∈ visited
            · rw [if_pos hdup] at h
              exact ih rest visited nc (tick + 1) S nc2 tick2
                (fun q hq => hqinv q (List.mem_cons_of_mem _ hq)) h
            · rw [if_neg hdup] at h
              obtain ⟨hhead, hlast, hnd, hinb, htail⟩ := hqinv _ (List.mem_cons_self _ _)
              obtain ⟨hvs, hve, hsne, hins, hine⟩ := findPairs_facts B k startC endC hfp
              obtain ⟨hsq, hagn, hposge⟩ := complete_path_step B n k board startC endC path
                hB hb hag hk1 hvs hve hhead hnd hinb htail
              have hposle := posCount_le (applyPath board path k) n hsq
              by_cases hpairs : (pairsOf B (k + 1)).isSome = true
              · rw [if_pos hpairs] at h
                by_cases hsum : sum + path.length = board.length ^ 2
                · rw [if_pos hsum] at h
                  simp only [Option.some.injEq, Except.ok.injEq, Prod.mk.injEq] at h
                  obtain ⟨rfl, -, -⟩ := h
                  have hn2 : board.length ^ 2 = n * n := by
                    rw [hb.1, pow_two]
                  refine ⟨hsq, hagn, ?_⟩
                  omega
                · rw [if_neg hsum] at h
                  rcases hr : rec (applyPath board path k) (sum + path.length) (nc + 1)
                      (tick + 1) with _ | er
                  · rw [hr] at h
                    simp at h
                  · rcases er with e | res
                    · rw [hr] at h
                      simp at h
                    · obtain ⟨obd, nc3, t3⟩ := res
                      rcases obd with _ | S2
                      · rw [hr] at h
                        exact ih rest (path :: visited) nc3 t3 S nc2 tick2
                          (fun q hq => hqinv q (List.mem_cons_of_mem _ hq)) h
                      · rw [hr] at h
                        simp only [Option.some.injEq, Except.ok.injEq, Prod.mk.injEq] at h
                        obtain ⟨rfl, -, -⟩ := h
                        refine hrec (applyPath board path k) (sum + path.length)
                          (nc + 1) (tick + 1) S2 nc3 t3 hsq hagn ?_ hr
                        omega
              · rw [if_neg hpairs] at h
                by_cases hsum : sum + path.length = board.length * board.length
                · rw [if_pos hsum] at h
                  simp only [Option.some.injEq, Except.ok.injEq, Prod.mk.injEq] at h
                  obtain ⟨rfl, -, -⟩ := h
                  have hn2 : board.length * board.length = n * n := by
                    rw [hb.1]
                  refine ⟨hsq, hagn, ?_⟩
                  omega
                · rw [if_neg hsum] at h
                  exact ih rest (path :: visited) (nc + 1) (tick + 1) S nc2 tick2
                    (fun q hq => hqinv q (List.mem_cons_of_mem _ hq)) h
          · rw [if_neg hgate] at h
            exact ih rest visited nc (tick + 1) S nc2 tick2
              (fun q hq => hqinv q (List.mem_cons_of_mem _ hq)) h
        · rw [if_neg hend] at h
          exact ih (extendPaths board endC cx cy path directions rest) visited nc (tick + 1)
            S nc2 tick2
            (extendPaths_inv board n hb startC endC cx cy path
              (hqinv _ (List.mem_cons_self _ _)) directions rest
              (fun q hq => hqinv q (List.mem_cons_of_mem _ hq)))
            h

/-- Main invariant lemma for `explorePathsForNumber`: any solved board it
returns is square, agrees with the original board's labels, and has full
positive-cell count. -/
theorem explore_main (B : Board) (n : Nat) (timer : Nat → Bool) (hB : SquareBoard B n) :
    ∀ (fuel : Nat) (board : Board) (sum k nc tick : Nat) (S : Board) (nc2 tick2 : Nat),
      SquareBoard board n → agrees B board →
      sum + 2 * (maxColor B + 1 - k) ≤ posCount board →
      explorePathsForNumber fuel board sum k (pairsOf B) (maxColor B) nc tick timer =
        some (Except.ok (some S, nc2, tick2)) →
      SquareBoard S n ∧ agrees B S ∧ posCount S = n * n := by
  intro fuel
  induction fuel with
  | zero =>
    intro board sum k nc tick S nc2 tick2 _ _ _ h
    exact Option.noConfusion h
  | succ fuel ih =>
    intro board sum k nc tick S nc2 tick2 hb hag hcount h
    rw [explorePathsForNumber] at h
    rcases hpk : pairsOf B k with _ | ⟨sc2, ec2⟩
    · rw [hpk] at h
      simp at h
    · rw [hpk] at h
      rcases sc2 with _ | sc
      · simp at h
      · rcases ec2 with _ | ec
        · simp at h
        · dsimp only [] at h
          rcases ha : aStar board sc ec with _ | minDist
          · rw [ha] at h
            simp at h
          · rw [ha] at h
            dsimp only [] at h
            by_cases hla : lookaheadHeuristics board (pairsOf B) (maxColor B) (k + 1) = true
            · rw [if_pos hla] at h
              simp at h
            · rw [if_neg hla] at h
              obtain ⟨hk1, hk2, hfp⟩ := pairsOf_some B k (some sc, some ec) hpk
              obtain ⟨hvs, hve, hsne, hins, hine⟩ := findPairs_facts B k sc ec hfp
              refine exploreLoop_main B n timer k sc ec hB hk1 hk2 hfp board sum minDist
                hb hag hcount _ ?_ fuel _ [] nc tick S nc2 tick2 ?_ h
              · intro b2 s2 nc5 t2 S2 nc3 t3 hb2 hag2 hcnt2 hr
                exact ih b2 s2 (k + 1) nc5 t2 S2 nc3 t3 hb2 hag2 hcnt2 hr
              · intro q hq
                obtain rfl : q = (sc.1, sc.2, [sc]) := by simpa using hq
                refine ⟨rfl, rfl, by simp, ?_, ?_⟩
                · intro c hc
                  obtain rfl : c = sc := by simpa using hc
                  exact (InB_iff_InBn B n hB _).mp hins
                · intro c hc
                  simp at hc

/-- Dissection of a successful `solve` run down to `explore_main`. -/
theorem solve_success_main (B : Board) (n : Nat) (timer : Nat → Bool) (fuel tEnd : Nat)
    (r : SolveResult) (S : Board) (hB : SquareBoard B n)
    (hr : solve (some B) timer fuel tEnd = some r) (hS : r.board = some S) :
    SquareBoard S n ∧ agrees B S ∧ posCount S = n * n := by
  simp only [solve, solveRaw] at hr
  by_cases hz : B.length = 0
  · rw [if_pos hz] at hr
    simp at hr
    rw [← hr] at hS
    simp [zeroEnv] at hS
  · rw [if_neg hz] at hr
    rcases hsb : solveBoard B timer fuel with e | ores
    · rw [hsb] at hr
      simp at hr
      rw [← hr] at hS
      simp [zeroEnv] at hS
    · rw [hsb] at hr
      rcases ores with _ | ⟨bres, nc⟩
      · simp at hr
      · simp only [Option.some.injEq] at hr
        rw [← hr] at hS
        simp only [] at hS
        subst hS
        unfold solveBoard at hsb
        split at hsb
        · rename_i hval
          have hm : (match explorePathsForNumber fuel B 0 1 (pairsOf B) (maxColor B)
                0 0 timer with
              | none => (none : Option (Option Board × Nat))
              | some (Except.error _) => some (none, 0)
              | some (Except.ok (bd, nc3, _)) => some (bd, nc3)) = some (some S, nc) := by
            injection hsb
          rcases hex : explorePathsForNumber fuel B 0 1 (pairsOf B) (maxColor B) 0 0 timer
            with _ | er
          · rw [hex] at hm
            exact Option.noConfusion hm
          · rcases er with e2 | ⟨obd, nc4, t4⟩
            · rw [hex] at hm
              simp at hm
            · rw [hex] at hm
              simp only [Option.some.injEq, Prod.mk.injEq] at hm
              obtain ⟨rfl, -⟩ := hm
              have hocc := (solveBoard_validation B).mp hval
              have hlow := posCount_lower B hocc
              refine explore_main B n timer hB fuel B 0 1 0 0 S nc4 t4 hB
                (fun c h => rfl) (by omega) hex
        · exact Except.noConfusion hsb

/-- C1.  Totality of returned solutions: whenever `solve` returns an
envelope carrying a board `S`, every cell of `S` is strictly positive; the
positive-cell count of `S` equals `N²` (success is only returned at full
accumulated path-cell count, which the counting invariant of the search
turns into a full board). -/
theorem C1_totality (B : Board) (n : Nat) (timer : Nat → Bool) (fuel tEnd : Nat)
    (r : SolveResult) (S : Board) (hB : SquareBoard B n)
    (hr : solve (some B) timer fuel tEnd = some r) (hS : r.board = some S) :
    (∀ c, InBn n c → 0 < getCell S c) ∧ posCount S = n * n := by
  obtain ⟨hsq, hag, hfull⟩ := solve_success_main B n timer fuel tEnd r S hB hr hS
  exact ⟨posCount_full S n hsq hfull, hfull⟩

/-- Witness for C1 at a concrete solvable board. -/
theorem C1_totality_witness :
    (SquareBoard [[1, 1], [0, 0]] 2 ∧
      solve (some [[1, 1], [0, 0]]) (fun _ => false) 100 0 =
        some { board := some [[1, 1], [1, 1]], timedOut := false, timeTaken := 0,
               nodeCount := 2 } ∧
      ({ board := some [[1, 1], [1, 1]], timedOut := false, timeTaken := 0,
         nodeCount := 2 } : SolveResult).board = some [[1, 1], [1, 1]]) ∧
    ((∀ c, InBn 2 c → 0 < getCell [[1, 1], [1, 1]] c) ∧
      posCount [[1, 1], [1, 1]] = 2 * 2) :=
  ⟨⟨by decide, by decide, by decide⟩,
    C1_totality [[1, 1], [0, 0]] 2 (fun _ => false) 100 0
      { board := some [[1, 1], [1, 1]], timedOut := false, timeTaken := 0, nodeCount := 2 }
      [[1, 1], [1, 1]] (by decide) (by decide) (by decide)⟩

/-- C2.  Preservation of input labels: whenever `solve` returns an envelope
carrying a board `S`, every positive cell of the input keeps its value
(path application only writes color `k` into cells that were empty or were
the endpoints of `k`, which carry `k` already). -/
theorem C2_preservation (B : Board) (n : Nat) (timer : Nat → Bool) (fuel tEnd : Nat)
    (r : SolveResult) (S : Board) (hB : SquareBoard B n)
    (hr : solve (some B) timer fuel tEnd = some r) (hS : r.board = some S) :
    ∀ c : Cell, 0 < getCell B c → getCell S c = getCell B c :=
  (solve_success_main B n timer fuel tEnd r S hB hr hS).2.1

/-- Witness for C2 at a concrete solvable board. -/
theorem C2_preservation_witness :
    (SquareBoard [[1, 2], [1, 2]] 2 ∧
      solve (some [[1, 2], [1, 2]]) (fun _ => false) 100 0 =
        some { board := some [[1, 2], [1, 2]], timedOut := false, timeTaken := 0,
               nodeCount := 2 } ∧
      ({ board := some [[1, 2], [1, 2]], timedOut := false, timeTaken := 0,
         nodeCount := 2 } : SolveResult).board = some [[1, 2], [1, 2]]) ∧
    (∀ c : Cell, 0 < getCell [[1, 2], [1, 2]] c →
      getCell [[1, 2], [1, 2]] c = getCell [[1, 2], [1, 2]] c) :=
  ⟨⟨by decide, by decide, by decide⟩,
    C2_preservation [[1, 2], [1, 2]] 2 (fun _ => false) 100 0
      { board := some [[1, 2], [1, 2]], timedOut := false, timeTaken := 0, nodeCount := 2 }
      [[1, 2], [1, 2]] (by decide) (by decide) (by decide)⟩

/-! ### Membership facts for the heap operations

`heapSwap` with in-range indices permutes two entries in place, so it
preserves the set of members; `bubbleUp`, `bubbleDown`, `heapPush` and
`heapPop` then only move entries around (plus the one appended or
removed). -/

theorem mem_heapSwap (h : List HeapEntry) (i j : Nat) (hi : i < h.length)
    (hj : j < h.length) (e : HeapEntry) : e ∈ heapSwap h i j ↔ e ∈ h := by
  unfold heapSwap
  constructor
  · intro he
    rcases List.mem_or_eq_of_mem_set he with he2 | rfl
    · rcases List.mem_or_eq_of_mem_set he2 with he3 | rfl
      · exact he3
      · rw [List.getD_eq_getElem h heapDefault hj]
        exact List.getElem_mem hj
    · rw [List.getD_eq_getElem h heapDefault hi]
      exact List.getElem_mem hi
  · intro he
    rw [List.mem_iff_getElem] at he
    obtain ⟨k, hk, hke⟩ := he
    by_cases hki : k = i
    · subst hki
      have hjl : j < ((h.set k (h.getD j heapDefault)).set j (h.getD k heapDefault)).length := by
        simpa using hj
      refine List.mem_iff_getElem.mpr ⟨j, hjl, ?_⟩
      rw [List.getElem_set_self, List.getD_eq_getElem h heapDefault hk]
      exact hke
    · by_cases hkj : k = j
      · subst hkj
        have hil : i < ((h.set i (h.getD k heapDefault)).set k (h.getD i heapDefault)).length := by
          simpa using hi
        refine List.mem_iff_getElem.mpr ⟨i, hil, ?_⟩
        rw [List.getElem_set_ne hki, List.getElem_set_self,
          List.getD_eq_getElem h heapDefault hk]
        exact hke
      · have hkl : k < ((h.set i (h.getD j heapDefault)).set j (h.getD i heapDefault)).length := by
          simpa using hk
        refine List.mem_iff_getElem.mpr ⟨k, hkl, ?_⟩
        rw [List.getElem_set_ne (fun hh => hkj hh.symm), List.getElem_set_ne (fun hh => hki hh.symm)]
        exact hke

theorem mem_bubbleUp (fuel : Nat) (h : List HeapEntry) (i : Nat) (hi : i < h.length)
    (e : HeapEntry) : e ∈ bubbleUp fuel h i ↔ e ∈ h := by
  induction fuel generalizing h i with
  | zero => exact Iff.rfl
  | succ fuel ih =>
    cases i with
    | zero => exact Iff.rfl
    | succ j =>
      simp only [bubbleUp]
      split
      · rw [ih (heapSwap h (j + 1) (j / 2)) (j / 2) (by rw [heapSwap_length]; omega),
          mem_heapSwap h (j + 1) (j / 2) hi (by omega) e]
      · exact Iff.rfl

theorem mem_heapPush (h : List HeapEntry) (x e : HeapEntry) :
    e ∈ heapPush h x ↔ e ∈ h ∨ e = x := by
  rw [heapPush, mem_bubbleUp _ _ _ (by simp), List.mem_append, List.mem_singleton]

theorem mem_bubbleDown (fuel : Nat) (h : List HeapEntry) (i : Nat) (e : HeapEntry) :
    e ∈ bubbleDown fuel h i ↔ e ∈ h := by
  induction fuel generalizing h i with
  | zero => exact Iff.rfl
  | succ fuel ih =>
    simp only [bubbleDown]
    split
    · exact Iff.rfl
    · rename_i hne
      rcases pickSmallest_spec h i with heq | ⟨hlt, hlen⟩
      · exact absurd heq hne
      · rw [ih, mem_heapSwap h i (pickSmallest h i) (by omega) hlen]

theorem heapPop_mem (h : List HeapEntry) (e : HeapEntry) (rest : List HeapEntry)
    (hp : heapPop h = some (e, rest)) : e ∈ h ∧ ∀ e2 ∈ rest, e2 ∈ h := by
  match h with
  | [] => exact Option.noConfusion hp
  | [x] =>
    simp only [heapPop, Option.some.injEq, Prod.mk.injEq] at hp
    obtain ⟨rfl, rfl⟩ := hp
    exact ⟨List.mem_singleton_self x, fun e2 he2 => absurd he2 (List.not_mem_nil e2)⟩
  | top :: a :: tail =>
    simp only [heapPop, Option.some.injEq, Prod.mk.injEq] at hp
    obtain ⟨rfl, hrest⟩ := hp
    refine ⟨List.mem_cons_self _ _, fun e2 he2 => ?_⟩
    rw [← hrest, mem_bubbleDown] at he2
    rcases List.mem_or_eq_of_mem_set he2 with h3 | rfl
    · exact List.dropLast_subset _ h3
    · exact List.mem_cons_of_mem top (List.getLast_mem (List.cons_ne_nil a tail))

theorem heapPop_mem_rev (h : List HeapEntry) (e : HeapEntry) (rest : List HeapEntry)
    (hp : heapPop h = some (e, rest)) : ∀ e2 ∈ h, e2 = e ∨ e2 ∈ rest := by
  match h with
  | [] => exact Option.noConfusion hp
  | [x] =>
    simp only [heapPop, Option.some.injEq, Prod.mk.injEq] at hp
    obtain ⟨rfl, rfl⟩ := hp
    intro e2 he2
    rw [List.mem_singleton] at he2
    exact Or.inl he2
  | top :: a :: tail =>
    simp only [heapPop, Option.some.injEq, Prod.mk.injEq] at hp
    obtain ⟨rfl, hrest⟩ := hp
    intro e2 he2
    rcases List.mem_cons.mp he2 with rfl | he3
    · exact Or.inl rfl
    · right
      rw [← hrest, mem_bubbleDown]
      have hsplit : e2 ∈ (a :: tail).dropLast ∨
          e2 = (a :: tail).getLast (List.cons_ne_nil a tail) := by
        have hd := List.dropLast_append_getLast (List.cons_ne_nil a tail)
        rw [← hd] at he3
        rcases List.mem_append.mp he3 with h4 | h4
        · exact Or.inl h4
        · exact Or.inr (List.mem_singleton.mp h4)
      have hdl : (top :: a :: tail).dropLast = top :: (a :: tail).dropLast := rfl
      rcases hsplit with h4 | heq
      · rw [hdl, List.set_cons_zero]
        exact List.mem_cons_of_mem _ h4
      · rw [hdl, List.set_cons_zero, heq]
        exact List.mem_cons_self _ _

/-! ### Pointwise facts about the visited grid -/

theorem getD_set_ne2 {α : Type} (l : List α) (i j : Nat) (a d : α) (hij : i ≠ j) :
    (l.set i a).getD j d = l.getD j d := by
  by_cases hj : j < l.length
  · rw [List.getD_eq_getElem _ _ (by simpa using hj), List.getD_eq_getElem _ _ hj,
      List.getElem_set_ne hij]
  · rw [List.getD_eq_default _ _ (by simp only [List.length_set]; omega),
      List.getD_eq_default _ _ (by omega)]

theorem getVis_setVis_self (v : List (List Bool)) (r c : Nat) :
    getVis (setVis v r c) r c = true := by
  unfold getVis setVis
  by_cases hr : r < v.length
  · have h1 : (v.set r ((v.getD r []).set c true)).getD r [] = (v.getD r []).set c true := by
      rw [List.getD_eq_getElem (v.set r ((v.getD r []).set c true)) [] (by simpa using hr),
        List.getElem_set_self]
    rw [h1]
    by_cases hc : c < (v.getD r []).length
    · rw [List.getD_eq_getElem ((v.getD r []).set c true) true (by simpa using hc),
        List.getElem_set_self]
    · rw [List.getD_eq_default _ _ (by simp only [List.length_set]; omega)]
  · rw [List.set_eq_of_length_le (Nat.le_of_not_lt hr),
      List.getD_eq_default _ _ (Nat.le_of_not_lt hr)]
    rfl

theorem getVis_setVis_ne (v : List (List Bool)) (r c r2 c2 : Nat)
    (hne : (r2, c2) ≠ ((r, c) : Nat × Nat)) :
    getVis (setVis v r c) r2 c2 = getVis v r2 c2 := by
  unfold getVis setVis
  by_cases hrr : r = r2
  · subst hrr
    have hcc : c ≠ c2 := fun hcc2 => hne (congrArg (Prod.mk r) hcc2.symm)
    by_cases hr : r < v.length
    · have h1 : (v.set r ((v.getD r []).set c true)).getD r [] = (v.getD r []).set c true := by
        rw [List.getD_eq_getElem (v.set r ((v.getD r []).set c true)) [] (by simpa using hr),
          List.getElem_set_self]
      rw [h1, getD_set_ne2 _ c c2 _ _ hcc]
    · rw [List.set_eq_of_length_le (Nat.le_of_not_lt hr)]
  · rw [getD_set_ne2 v r r2 _ [] hrr]

/-- Growth order on visited grids: every visited cell stays visited. -/
def visLE (v w : List (List Bool)) : Prop :=
  ∀ r c, getVis v r c = true → getVis w r c = true

theorem visLE_refl (v : List (List Bool)) : visLE v v := fun _ _ h => h

theorem visLE_trans {u v w : List (List Bool)} (h1 : visLE u v) (h2 : visLE v w) :
    visLE u w := fun r c h => h2 r c (h1 r c h)

theorem visLE_setVis (v : List (List Bool)) (r c : Nat) : visLE v (setVis v r c) := by
  intro r2 c2 h
  by_cases he : ((r2, c2) : Nat × Nat) = (r, c)
  · obtain ⟨rfl, rfl⟩ : r2 = r ∧ c2 = c := ⟨congrArg Prod.fst he, congrArg Prod.snd he⟩
    exact getVis_setVis_self _ _ _
  · rw [getVis_setVis_ne v r c r2 c2 he]
    exact h

theorem visLE_false {v w : List (List Bool)} (h : visLE v w) {r c : Nat}
    (hf : getVis w r c = false) : getVis v r c = false := by
  cases hv : getVis v r c
  · rfl
  · rw [h r c hv] at hf
    exact Bool.noConfusion hf

theorem getVis_mkVis (n r c : Nat) (hr : r < n) (hc : c < n) :
    getVis (mkVis n) r c = false := by
  unfold getVis mkVis
  rw [List.getD_eq_getElem (List.replicate n (List.replicate n false)) [] (by simpa using hr),
    List.getElem_replicate,
    List.getD_eq_getElem (List.replicate n false) true (by simpa using hc),
    List.getElem_replicate]

/-! ### Paths extended one adjacent cell at a time -/

theorem chainAdj_append_last (p : List Cell) (l c : Cell) (hch : chainAdj p = true)
    (hl : p.getLast? = some l) (hadj : adjacentCells l c) :
    chainAdj (p ++ [c]) = true := by
  rw [chainAdj_iff] at hch ⊢
  rw [List.chain'_append]
  refine ⟨hch, List.chain'_singleton c, ?_⟩
  intro x hx y hy
  rw [Option.mem_def, hl, Option.some.injEq] at hx
  rw [Option.mem_def, List.head?_cons, Option.some.injEq] at hy
  subst hx
  subst hy
  exact hadj

/-- One of the four source `directions`, taken from an in-bounds cell,
lands on an adjacent cell. -/
theorem dir_adjacent (x y : Nat) (dx dy : Int) (hd : ((dx, dy) : Int × Int) ∈ directions)
    (hnx : 0 ≤ (x : Int) + dx) (hny : 0 ≤ (y : Int) + dy) :
    adjacentCells (x, y) (((x : Int) + dx).toNat, ((y : Int) + dy).toNat) := by
  simp only [directions, List.mem_cons, List.not_mem_nil, or_false, Prod.mk.injEq] at hd
  rcases hd with ⟨rfl, rfl⟩ | ⟨rfl, rfl⟩ | ⟨rfl, rfl⟩ | ⟨rfl, rfl⟩ <;>
    simp [adjacentCells] <;> omega

/-- Conversely, every adjacency is realized by one of the four source
`directions` (with the step staying non-negative). -/
theorem adjacent_to_dir (a c : Cell) (hadj : adjacentCells a c) :
    ∃ d ∈ directions, 0 ≤ (a.1 : Int) + d.1 ∧ 0 ≤ (a.2 : Int) + d.2 ∧
      ((a.1 : Int) + d.1).toNat = c.1 ∧ ((a.2 : Int) + d.2).toNat = c.2 := by
  obtain ⟨a1, a2⟩ := a
  obtain ⟨c1, c2⟩ := c
  unfold adjacentCells at hadj
  rcases hadj with ⟨heq, h2 | h2⟩ | ⟨heq, h2 | h2⟩
  · exact ⟨(0, 1), by simp [directions], by dsimp only; omega, by dsimp only; omega,
      by dsimp only; omega, by dsimp only; omega⟩
  · exact ⟨(0, -1), by simp [directions], by dsimp only; omega, by dsimp only; omega,
      by dsimp only; omega, by dsimp only; omega⟩
  · exact ⟨(1, 0), by simp [directions], by dsimp only; omega, by dsimp only; omega,
      by dsimp only; omega, by dsimp only; omega⟩
  · exact ⟨(-1, 0), by simp [directions], by dsimp only; omega, by dsimp only; omega,
      by dsimp only; omega, by dsimp only; omega⟩

/-- The invariant carried by every heap entry `(f, g, x, y)` of `aStar`:
some simple 4-connected path from the start to `(x, y)` has `g` edges,
stays in bounds, crosses only empty cells after its head, and lies
entirely inside the visited grid. -/
def NodePath (b : Board) (s : Cell) (vis : List (List Bool)) (g x y : Nat)
    (p : List Cell) : Prop :=
  p.head? = some s ∧ p.getLast? = some (x, y) ∧ chainAdj p = true ∧ p.Nodup ∧
    (∀ c ∈ p, InBn b.length c) ∧ (∀ c ∈ p.tail, getCell b c = 0) ∧
    p.length = g + 1 ∧ ∀ c ∈ p, getVis vis c.1 c.2 = true

def HeapOK (b : Board) (s : Cell) (vis : List (List Bool)) (pq : List HeapEntry) : Prop :=
  ∀ e ∈ pq, ∃ p, NodePath b s vis e.2.1 e.2.2.1 e.2.2.2 p

theorem NodePath_mono {b : Board} {s : Cell} {vis vis2 : List (List Bool)}
    {g x y : Nat} {p : List Cell} (hle : visLE vis vis2)
    (h : NodePath b s vis g x y p) : NodePath b s vis2 g x y p := by
  obtain ⟨h1, h2, h3, h4, h5, h6, h7, h8⟩ := h
  exact ⟨h1, h2, h3, h4, h5, h6, h7, fun c hc => hle c.1 c.2 (h8 c hc)⟩

theorem NodePath_extend {b : Board} {s : Cell} {vis : List (List Bool)}
    {g x y : Nat} {p : List Cell} (h : NodePath b s vis g x y p) (c : Cell)
    (hadj : adjacentCells (x, y) c) (hc : c ∉ p) (hcb : InBn b.length c) :
    (p ++ [c]).head? = some s ∧ (p ++ [c]).getLast? = some c ∧
      chainAdj (p ++ [c]) = true ∧ (p ++ [c]).Nodup ∧
      (∀ d ∈ p ++ [c], InBn b.length d) ∧
      ((p ++ [c]).drop 1).dropLast = p.drop 1 ∧
      (p ++ [c]).tail = p.tail ++ [c] ∧ (p ++ [c]).length = g + 2 := by
  obtain ⟨h1, h2, h3, h4, h5, h6, h7, h8⟩ := h
  have hne : p ≠ [] := by
    intro hp
    rw [hp] at h1
    exact Option.noConfusion h1
  obtain ⟨a, p2, rfl⟩ : ∃ a p2, p = a :: p2 := by
    cases p with
    | nil => exact absurd rfl hne
    | cons a p2 => exact ⟨a, p2, rfl⟩
  have ha : a = s := by
    rw [List.head?_cons, Option.some.injEq] at h1
    exact h1
  subst ha
  refine ⟨rfl, List.getLast?_concat _, chainAdj_append_last _ (x, y) c h3 h2 hadj, ?_, ?_,
    ?_, rfl, ?_⟩
  · exact List.Nodup.append h4 (List.nodup_singleton c)
      (fun z hz hz2 => hc ((List.mem_singleton.mp hz2) ▸ hz))
  · intro d hd
    rcases List.mem_append.mp hd with h9 | h9
    · exact h5 d h9
    · rw [List.mem_singleton] at h9
      subst h9
      exact hcb
  · simp only [List.cons_append, List.drop_one, List.tail_cons, List.dropLast_concat]
  · simp only [List.cons_append, List.length_append, List.length_cons, List.length_nil] at h7 ⊢
    omega

/-! ### The two outcomes of one `aStarDirs` pass -/

/-- What the processing of one direction `d` from the cell `(x, y)`
guarantees once the pass is over: the neighbour is out of bounds, or
visited, or a blocked non-target cell. -/
def StepOK (b : Board) (endc : Cell) (x y : Nat) (vis : List (List Bool))
    (d : Int × Int) : Prop :=
  (0 ≤ (x : Int) + d.1 ∧ (x : Int) + d.1 < (b.length : Int) ∧
      0 ≤ (y : Int) + d.2 ∧ (y : Int) + d.2 < (b.length : Int)) →
    getVis vis ((x : Int) + d.1).toNat ((y : Int) + d.2).toNat = true ∨
      (¬(((x : Int) + d.1).toNat = endc.1 ∧ ((y : Int) + d.2).toNat = endc.2) ∧
        getCell b (((x : Int) + d.1).toNat, ((y : Int) + d.2).toNat) ≠ 0)

theorem StepOK_mono {b : Board} {endc : Cell} {x y : Nat}
    {vis vis2 : List (List Bool)} {d : Int × Int} (hle : visLE vis vis2)
    (h : StepOK b endc x y vis d) : StepOK b endc x y vis2 d := by
  intro hbnd
  rcases h hbnd with h2 | h2
  · exact Or.inl (hle _ _ h2)
  · exact Or.inr h2

/-- What holds of an entry that was pushed (rather than inherited) during
one `aStarDirs` pass from the node `(g, x, y)`. -/
def PushCond (b : Board) (endc : Cell) (g x y : Nat) (vis vis2 : List (List Bool))
    (e : HeapEntry) : Prop :=
  e.2.1 = g + 1 ∧ InBn b.length (e.2.2.1, e.2.2.2) ∧
    adjacentCells (x, y) (e.2.2.1, e.2.2.2) ∧ ((e.2.2.1, e.2.2.2) : Cell) ≠ endc ∧
    getCell b (e.2.2.1, e.2.2.2) = 0 ∧ getVis vis e.2.2.1 e.2.2.2 = false ∧
    getVis vis2 e.2.2.1 e.2.2.2 = true

/-- An early `return g + 1` from the direction pass: the target is adjacent
to the popped cell, in bounds, and unvisited in some grown grid. -/
theorem aStarDirs_inl_spec (b : Board) (endc : Cell) (g x y : Nat) :
    ∀ (ds : List (Int × Int)) (vis : List (List Bool)) (pq : List HeapEntry) (gr : Nat),
      (∀ d ∈ ds, d ∈ directions) →
      aStarDirs b endc g x y ds vis pq = Sum.inl gr →
      gr = g + 1 ∧ adjacentCells (x, y) endc ∧ InBn b.length endc ∧
        ∃ vis2, visLE vis vis2 ∧ getVis vis2 endc.1 endc.2 = false := by
  intro ds
  induction ds with
  | nil =>
    intro vis pq gr _ h
    simp only [aStarDirs] at h
    exact Sum.noConfusion h
  | cons d ds ih =>
    obtain ⟨dx, dy⟩ := d
    intro vis pq gr hds h
    simp only [aStarDirs] at h
    split at h
    · rename_i hb
      split at h
      · exact ih vis pq gr (fun d2 hd2 => hds d2 (List.mem_cons_of_mem _ hd2)) h
      · split at h
        · rename_i hnv hend
          have hgr : gr = g + 1 := by
            injection h with h2
            exact h2.symm
          obtain ⟨hex, hey⟩ := hend
          have hex2 : ((x : Int) + dx).toNat = endc.1 := hex
          have hey2 : ((y : Int) + dy).toNat = endc.2 := hey
          refine ⟨hgr, ?_, ⟨?_, ?_⟩, vis, visLE_refl vis, ?_⟩
          · have hadj := dir_adjacent x y dx dy (hds _ (List.mem_cons_self _ _)) hb.1 hb.2.2.1
            rw [hex2, hey2] at hadj
            exact hadj
          · have hub := hb.2.1
            omega
          · have hub := hb.2.2.2
            omega
          · rw [← hex2, ← hey2]
            cases hgv : getVis vis ((x : Int) + dx).toNat ((y : Int) + dy).toNat
            · rfl
            · exact absurd hgv hnv
        · split at h
          · obtain ⟨hgr, hadj, hinb, vis2, hle, hfalse⟩ :=
              ih _ _ _ (fun d2 hd2 => hds d2 (List.mem_cons_of_mem _ hd2)) h
            exact ⟨hgr, hadj, hinb, vis2, visLE_trans (visLE_setVis _ _ _) hle, hfalse⟩
          · exact ih _ _ _ (fun d2 hd2 => hds d2 (List.mem_cons_of_mem _ hd2)) h
    · exact ih _ _ _ (fun d2 hd2 => hds d2 (List.mem_cons_of_mem _ hd2)) h

/-- A completed direction pass: the visited grid grows, the heap gains
exactly the freshly pushed neighbours (fresh, empty, non-target, adjacent,
marked), loses nothing, every newly visited cell sits in the heap, and
every processed direction satisfies `StepOK`. -/
theorem aStarDirs_inr_spec (b : Board) (endc : Cell) (g x y : Nat) :
    ∀ (ds : List (Int × Int)) (vis : List (List Bool)) (pq : List HeapEntry)
      (vis2 : List (List Bool)) (pq2 : List HeapEntry),
      (∀ d ∈ ds, d ∈ directions) →
      aStarDirs b endc g x y ds vis pq = Sum.inr (vis2, pq2) →
      visLE vis vis2 ∧
        (∀ e ∈ pq2, e ∈ pq ∨ PushCond b endc g x y vis vis2 e) ∧
        (∀ e ∈ pq, e ∈ pq2) ∧
        (∀ r c, getVis vis2 r c = true →
          getVis vis r c = true ∨ ∃ e ∈ pq2, e.2.2.1 = r ∧ e.2.2.2 = c) ∧
        (∀ d ∈ ds, StepOK b endc x y vis2 d) := by
  intro ds
  induction ds with
  | nil =>
    intro vis pq vis2 pq2 _ h
    simp only [aStarDirs, Sum.inr.injEq, Prod.mk.injEq] at h
    obtain ⟨rfl, rfl⟩ := h
    exact ⟨visLE_refl _, fun e he => Or.inl he, fun e he => he,
      fun r c hrc => Or.inl hrc, fun d hd => absurd hd (List.not_mem_nil d)⟩
  | cons d ds ih =>
    obtain ⟨dx, dy⟩ := d
    intro vis pq vis2 pq2 hds h
    simp only [aStarDirs] at h
    split at h
    · rename_i hb
      split at h
      · rename_i hv
        obtain ⟨h1, h2, h3, h4, h5⟩ :=
          ih vis pq vis2 pq2 (fun d2 hd2 => hds d2 (List.mem_cons_of_mem _ hd2)) h
        refine ⟨h1, h2, h3, h4, ?_⟩
        intro d2 hd2
        rcases List.mem_cons.mp hd2 with rfl | hd3
        · intro hbnd
          exact Or.inl (h1 _ _ hv)
        · exact h5 d2 hd3
      · split at h
        · exact Sum.noConfusion h
        · rename_i hv hne2
          split at h
          · rename_i hz
            obtain ⟨h1, h2, h3, h4, h5⟩ :=
              ih _ _ _ _ (fun d2 hd2 => hds d2 (List.mem_cons_of_mem _ hd2)) h
            have hlesv : visLE vis (setVis vis ((x : Int) + dx).toNat ((y : Int) + dy).toNat) :=
              visLE_setVis _ _ _
            have h1b : visLE vis vis2 := visLE_trans hlesv h1
            refine ⟨h1b, ?_, ?_, ?_, ?_⟩
            · intro e he
              rcases h2 e he with he2 | hp
              · rcases (mem_heapPush _ _ e).mp he2 with he3 | rfl
                · exact Or.inl he3
                · right
                  unfold PushCond
                  dsimp only
                  refine ⟨rfl, ⟨by omega, by omega⟩, ?_, ?_, hz, ?_, ?_⟩
                  · exact dir_adjacent x y dx dy (hds _ (List.mem_cons_self _ _)) hb.1 hb.2.2.1
                  · exact fun heq => hne2 ⟨congrArg Prod.fst heq, congrArg Prod.snd heq⟩
                  · cases hgv : getVis vis ((x : Int) + dx).toNat ((y : Int) + dy).toNat
                    · rfl
                    · exact absurd hgv hv
                  · exact h1 _ _ (getVis_setVis_self vis _ _)
              · right
                obtain ⟨hp1, hp2, hp3, hp4, hp5, hp6, hp7⟩ := hp
                exact ⟨hp1, hp2, hp3, hp4, hp5, visLE_false hlesv hp6, hp7⟩
            · intro e he
              exact h3 e ((mem_heapPush _ _ e).mpr (Or.inl he))
            · intro r c hrc
              rcases h4 r c hrc with hv2 | hex2
              · by_cases heq : ((r, c) : Nat × Nat) =
                    (((x : Int) + dx).toNat, ((y : Int) + dy).toNat)
                · obtain ⟨hr1, hc1⟩ : r = ((x : Int) + dx).toNat ∧ c = ((y : Int) + dy).toNat :=
                    ⟨congrArg Prod.fst heq, congrArg Prod.snd heq⟩
                  subst hr1
                  subst hc1
                  exact Or.inr ⟨_, h3 _ ((mem_heapPush _ _ _).mpr (Or.inr rfl)), rfl, rfl⟩
                · rw [getVis_setVis_ne _ _ _ _ _ heq] at hv2
                  exact Or.inl hv2
              · exact Or.inr hex2
            · intro d2 hd2
              rcases List.mem_cons.mp hd2 with rfl | hd3
              · intro hbnd
                exact Or.inl (h1 _ _ (getVis_setVis_self vis _ _))
              · exact h5 d2 hd3
          · rename_i hz
            obtain ⟨h1, h2, h3, h4, h5⟩ :=
              ih _ _ _ _ (fun d2 hd2 => hds d2 (List.mem_cons_of_mem _ hd2)) h
            refine ⟨h1, h2, h3, h4, ?_⟩
            intro d2 hd2
            rcases List.mem_cons.mp hd2 with rfl | hd3
            · intro hbnd
              exact Or.inr ⟨hne2, hz⟩
            · exact h5 d2 hd3
    · rename_i hb
      obtain ⟨h1, h2, h3, h4, h5⟩ :=
        ih _ _ _ _ (fun d2 hd2 => hds d2 (List.mem_cons_of_mem _ hd2)) h
      refine ⟨h1, h2, h3, h4, ?_⟩
      intro d2 hd2
      rcases List.mem_cons.mp hd2 with rfl | hd3
      · intro hbnd
        exact absurd hbnd hb
      · exact h5 d2 hd3

/-! ### Soundness of `aStar`: a finite result names a real open path -/

theorem aStarLoop_sound (b : Board) (s endc : Cell) :
    ∀ (fuel : Nat) (vis : List (List Bool)) (pq : List HeapEntry) (r : Nat),
      HeapOK b s vis pq →
      aStarLoop fuel b endc vis pq = some r →
      ∃ p, isOpenPath b s endc p ∧ p.length = r + 1 := by
  intro fuel
  induction fuel with
  | zero =>
    intro vis pq r _ h
    exact Option.noConfusion h
  | succ fuel ih =>
    intro vis pq r hok h
    rw [aStarLoop] at h
    rcases hpop : heapPop pq with _ | ⟨et, pq2⟩
    · rw [hpop] at h
      exact Option.noConfusion h
    · rw [hpop] at h
      dsimp only [] at h
      split at h
      · rename_i hend
        have hr : et.2.1 = r := by injection h
        obtain ⟨p, hp⟩ := hok et (heapPop_mem pq et pq2 hpop).1
        obtain ⟨h1, h2, h3, h4, h5, h6, h7, h8⟩ := hp
        refine ⟨p, ⟨h1, ?_, h3, h4, h5, ?_⟩, by omega⟩
        · rw [h2]
          exact congrArg some (Prod.ext hend.1 hend.2)
        · intro c hc
          apply h6
          rw [← List.drop_one]
          exact List.dropLast_subset _ hc
      · rename_i hend
        rcases hdirs : aStarDirs b endc et.2.1 et.2.2.1 et.2.2.2 directions vis pq2 with gr | vp
        · rw [hdirs] at h
          have hr : gr = r := by injection h
          obtain ⟨hgr, hadj, hinb, vis3, hle, hfalse⟩ :=
            aStarDirs_inl_spec b endc et.2.1 et.2.2.1 et.2.2.2 directions vis pq2 gr
              (fun d hd => hd) hdirs
          obtain ⟨p, hp⟩ := hok et (heapPop_mem pq et pq2 hpop).1
          have hnotin : endc ∉ p := by
            intro hmem
            have h9 := hp.2.2.2.2.2.2.2 endc hmem
            have h10 := hle endc.1 endc.2 h9
            rw [h10] at hfalse
            exact Bool.noConfusion hfalse
          obtain ⟨g1, g2, g3, g4, g5, g6, g7, g8⟩ := NodePath_extend hp endc hadj hnotin hinb
          refine ⟨p ++ [endc], ⟨g1, g2, g3, g4, g5, ?_⟩, ?_⟩
          · rw [g6, List.drop_one]
            exact hp.2.2.2.2.2.1
          · rw [g8]
            omega
        · obtain ⟨vis3, pq3⟩ := vp
          rw [hdirs] at h
          apply ih vis3 pq3 r ?_ h
          obtain ⟨hle, hmem, hsub, hnew, hstep⟩ :=
            aStarDirs_inr_spec b endc et.2.1 et.2.2.1 et.2.2.2 directions vis pq2 vis3 pq3
              (fun d hd => hd) hdirs
          intro e he
          rcases hmem e he with he2 | hpc
          · obtain ⟨p, hp⟩ := hok e ((heapPop_mem pq et pq2 hpop).2 e he2)
            exact ⟨p, NodePath_mono hle hp⟩
          · obtain ⟨p, hp⟩ := hok et (heapPop_mem pq et pq2 hpop).1
            obtain ⟨hp1, hp2b, hp3, hp4, hp5, hp6, hp7⟩ := hpc
            have hnotin : ((e.2.2.1, e.2.2.2) : Cell) ∉ p := by
              intro hmem2
              have h9 : getVis vis e.2.2.1 e.2.2.2 = true := hp.2.2.2.2.2.2.2 _ hmem2
              rw [h9] at hp6
              exact Bool.noConfusion hp6
            obtain ⟨g1, g2, g3, g4, g5, g6, g7, g8⟩ :=
              NodePath_extend hp (e.2.2.1, e.2.2.2) hp3 hnotin hp2b
            refine ⟨p ++ [(e.2.2.1, e.2.2.2)], g1, g2, g3, g4, g5, ?_, ?_, ?_⟩
            · rw [g7]
              intro c2 hc2
              rcases List.mem_append.mp hc2 with h9 | h9
              · exact hp.2.2.2.2.2.1 c2 h9
              · rw [List.mem_singleton] at h9
                subst h9
                exact hp5
            · rw [g8, hp1]
            · intro c2 hc2
              rcases List.mem_append.mp hc2 with h9 | h9
              · exact hle c2.1 c2.2 (hp.2.2.2.2.2.2.2 c2 h9)
              · rw [List.mem_singleton] at h9
                subst h9
                exact hp7

theorem aStar_sound (b : Board) (s t : Cell) (r : Nat) (hs : InBn b.length s)
    (h : aStar b s t = some r) : ∃ p, isOpenPath b s t p ∧ p.length = r + 1 := by
  obtain ⟨s1, s2⟩ := s
  rw [aStar] at h
  apply aStarLoop_sound b (s1, s2) t _ _ _ r ?_ h
  intro e he
  rw [show heapPush [] (0, 0, s1, s2) = [(0, 0, s1, s2)] from rfl, List.mem_singleton] at he
  subst he
  refine ⟨[(s1, s2)], rfl, rfl, rfl, List.nodup_singleton _, ?_, ?_, rfl, ?_⟩
  · intro c hc
    rw [List.mem_singleton] at hc
    subst hc
    exact hs
  · intro c hc
    exact absurd hc (List.not_mem_nil c)
  · intro c hc
    rw [List.mem_singleton] at hc
    subst hc
    exact getVis_setVis_self _ _ _

/-! ### Completeness of `aStar`: a `none` result rules out every open path -/

/-- Some heap entry sits at the cell `(r, c)`. -/
def cellIn (pq : List HeapEntry) (r c : Nat) : Prop :=
  ∃ e ∈ pq, e.2.2.1 = r ∧ e.2.2.2 = c

/-- Every visited in-bounds cell that is no longer on the heap has been
fully processed: each of its four neighbours is out of bounds, visited, or
a blocked non-target cell. -/
def ClosedOK (b : Board) (endc : Cell) (vis : List (List Bool))
    (pq : List HeapEntry) : Prop :=
  ∀ r c, r < b.length → c < b.length → getVis vis r c = true → ¬ cellIn pq r c →
    ∀ d ∈ directions, StepOK b endc r c vis d

/-- The loop invariant of `aStar` needed for completeness: the start is
visited, the start stays on the heap while it coincides with the target,
the target is otherwise unvisited and never on the heap, and every closed
cell is fully processed. -/
def AInv (b : Board) (s endc : Cell) (vis : List (List Bool))
    (pq : List HeapEntry) : Prop :=
  getVis vis s.1 s.2 = true ∧
    (s = endc → cellIn pq s.1 s.2) ∧
    (s ≠ endc → getVis vis endc.1 endc.2 = false) ∧
    (∀ e ∈ pq, s ≠ endc → ((e.2.2.1, e.2.2.2) : Cell) ≠ endc) ∧
    ClosedOK b endc vis pq

theorem aInv_step (b : Board) (s endc : Cell) (vis : List (List Bool))
    (pq : List HeapEntry) (et : HeapEntry) (pq2 : List HeapEntry)
    (vis3 : List (List Bool)) (pq3 : List HeapEntry)
    (hinv : AInv b s endc vis pq) (hpop : heapPop pq = some (et, pq2))
    (hend : ¬(et.2.2.1 = endc.1 ∧ et.2.2.2 = endc.2))
    (hdirs : aStarDirs b endc et.2.1 et.2.2.1 et.2.2.2 directions vis pq2 =
      Sum.inr (vis3, pq3)) :
    AInv b s endc vis3 pq3 := by
  obtain ⟨hi1, hi2, hi3, hi4, hi5⟩ := hinv
  obtain ⟨hle, hmem, hsub, hnew, hstep⟩ :=
    aStarDirs_inr_spec b endc et.2.1 et.2.2.1 et.2.2.2 directions vis pq2 vis3 pq3
      (fun d hd => hd) hdirs
  have hpqsub : ∀ e ∈ pq, e = et ∨ e ∈ pq3 :=
    fun e he => (heapPop_mem_rev pq et pq2 hpop e he).imp id (hsub e)
  have hpq2old : ∀ e ∈ pq2, e ∈ pq := (heapPop_mem pq et pq2 hpop).2
  refine ⟨hle s.1 s.2 hi1, ?_, ?_, ?_, ?_⟩
  · intro hseq
    obtain ⟨e, he, hrc⟩ := hi2 hseq
    rcases hpqsub e he with rfl | he3
    · exact absurd ⟨hrc.1.trans (congrArg Prod.fst hseq), hrc.2.trans (congrArg Prod.snd hseq)⟩
        hend
    · exact ⟨e, he3, hrc⟩
  · intro hsne
    cases hgv : getVis vis3 endc.1 endc.2
    · rfl
    · exfalso
      rcases hnew endc.1 endc.2 hgv with h2 | ⟨e, he, hrc⟩
      · rw [hi3 hsne] at h2
        exact Bool.noConfusion h2
      · rcases hmem e he with he2 | hpc
        · exact hi4 e (hpq2old e he2) hsne (Prod.ext hrc.1 hrc.2)
        · exact hpc.2.2.2.1 (Prod.ext hrc.1 hrc.2)
  · intro e he hsne
    rcases hmem e he with he2 | hpc
    · exact hi4 e (hpq2old e he2) hsne
    · exact hpc.2.2.2.1
  · intro r c hr hc hvis3 hnotin3 d hd
    by_cases hrc : r = et.2.2.1 ∧ c = et.2.2.2
    · obtain ⟨rfl, rfl⟩ := hrc
      exact hstep d hd
    · have hvis : getVis vis r c = true := by
        rcases hnew r c hvis3 with h2 | hcin
        · exact h2
        · exact absurd hcin hnotin3
      have hnotin : ¬ cellIn pq r c := by
        rintro ⟨e, he, hcomp⟩
        rcases hpqsub e he with rfl | he3
        · exact hrc ⟨hcomp.1.symm, hcomp.2.symm⟩
        · exact hnotin3 ⟨e, he3, hcomp⟩
      exact StepOK_mono hle (hi5 r c hr hc hvis hnotin d hd)

/-- With an empty heap and the invariant in force, no open path from the
start to the target can exist. -/
theorem no_heap_no_path (b : Board) (s endc : Cell) (vis : List (List Bool))
    (hinv : AInv b s endc vis []) (p : List Cell)
    (hp : isOpenPath b s endc p) : False := by
  obtain ⟨hi1, hi2, hi3, hi4, hi5⟩ := hinv
  have hsne : s ≠ endc := by
    intro hseq
    obtain ⟨e, he, -⟩ := hi2 hseq
    exact List.not_mem_nil e he
  obtain ⟨hh, hl, hch, hnd, hin, hmid⟩ := hp
  have hpne : p ≠ [] := by
    intro h0
    rw [h0] at hh
    exact Option.noConfusion hh
  have hlen1 : 1 ≤ p.length := by
    cases p with
    | nil => exact absurd rfl hpne
    | cons a q => simp
  have hgetlast : p.get ⟨p.length - 1, by omega⟩ = endc := by
    rw [List.get_eq_getElem, ← List.getLast_eq_getElem p hpne]
    rw [List.getLast?_eq_getLast p hpne] at hl
    injection hl
  have hget0 : p.get ⟨0, by omega⟩ = s := by
    rw [List.get_mk_zero]
    rw [List.head?_eq_head hpne, Option.some.injEq] at hh
    exact hh
  have hchain := (chainAdj_iff p).mp hch
  rw [List.chain'_iff_get] at hchain
  have hadj : ∀ i (h2 : i + 1 < p.length),
      adjacentCells (p.get ⟨i, by omega⟩) (p.get ⟨i + 1, h2⟩) := by
    intro i h2
    exact hchain i (by omega)
  have hvisited : ∀ i (hi : i < p.length),
      getVis vis (p.get ⟨i, hi⟩).1 (p.get ⟨i, hi⟩).2 = true := by
    intro i
    induction i with
    | zero =>
      intro hi
      rw [hget0]
      exact hi1
    | succ i ihv =>
      intro hi
      have hprev := ihv (by omega)
      have hinb : InBn b.length (p.get ⟨i, by omega⟩) := hin _ (List.get_mem p i _)
      have hnotin : ¬ cellIn [] (p.get ⟨i, by omega⟩).1 (p.get ⟨i, by omega⟩).2 := by
        rintro ⟨e, he, -⟩
        exact List.not_mem_nil e he
      obtain ⟨d, hd, hd1, hd2, hd3, hd4⟩ := adjacent_to_dir _ _ (hadj i hi)
      have hinb2 : InBn b.length (p.get ⟨i + 1, hi⟩) := hin _ (List.get_mem p (i + 1) _)
      have hstep := hi5 (p.get ⟨i, by omega⟩).1 (p.get ⟨i, by omega⟩).2 hinb.1 hinb.2
        hprev hnotin d hd
      have hub1 : (p.get ⟨i + 1, hi⟩).1 < b.length := hinb2.1
      have hub2 : (p.get ⟨i + 1, hi⟩).2 < b.length := hinb2.2
      have hbnd : 0 ≤ ((p.get ⟨i, by omega⟩).1 : Int) + d.1 ∧
          ((p.get ⟨i, by omega⟩).1 : Int) + d.1 < (b.length : Int) ∧
          0 ≤ ((p.get ⟨i, by omega⟩).2 : Int) + d.2 ∧
          ((p.get ⟨i, by omega⟩).2 : Int) + d.2 < (b.length : Int) :=
        ⟨hd1, by omega, hd2, by omega⟩
      rcases hstep hbnd with hv2 | ⟨hne3, hnz⟩
      · rw [hd3, hd4] at hv2
        exact hv2
      · exfalso
        by_cases hlast : i + 1 = p.length - 1
        · have hgen : ∀ j (hj : j < p.length), j = p.length - 1 → p.get ⟨j, hj⟩ = endc := by
            intro j hj hje
            subst hje
            exact hgetlast
          have hend2 : p.get ⟨i + 1, hi⟩ = endc := hgen (i + 1) hi hlast
          exact hne3 ⟨hd3.trans (congrArg Prod.fst hend2), hd4.trans (congrArg Prod.snd hend2)⟩
        · have h2len : i < (p.drop 1).dropLast.length := by
            simp only [List.length_dropLast, List.length_drop]
            omega
          have hgen2 : ∀ j (hj : j < p.length), j = i + 1 →
              p.get ⟨j, hj⟩ = p.get ⟨i + 1, hi⟩ := by
            intro j hj hje
            subst hje
            rfl
          have he3 : (p.drop 1).dropLast.get ⟨i, h2len⟩ = p.get ⟨i + 1, hi⟩ := by
            rw [List.get_eq_getElem, List.getElem_dropLast, List.getElem_drop]
            exact hgen2 (1 + i) (by omega) (by omega)
          have hmem2 : p.get ⟨i + 1, hi⟩ ∈ (p.drop 1).dropLast := by
            rw [← he3]
            exact List.get_mem _ _ _
          have hz := hmid _ hmem2
          rw [hd3, hd4] at hnz
          exact hnz hz
  have hlastvis := hvisited (p.length - 1) (by omega)
  rw [hgetlast] at hlastvis
  rw [hi3 hsne] at hlastvis
  exact Bool.noConfusion hlastvis

theorem aStarLoop_complete (b : Board) (s endc : Cell) :
    ∀ (fuel : Nat) (vis : List (List Bool)) (pq : List HeapEntry),
      AInv b s endc vis pq →
      5 * countFalse vis + pq.length ≤ fuel →
      aStarLoop fuel b endc vis pq = none →
      ∀ p, ¬ isOpenPath b s endc p := by
  intro fuel
  induction fuel with
  | zero =>
    intro vis pq hinv hmeas h p hp
    have hpq : pq = [] := List.length_eq_zero.mp (by omega)
    subst hpq
    exact no_heap_no_path b s endc vis hinv p hp
  | succ fuel ih =>
    intro vis pq hinv hmeas h p hp
    rw [aStarLoop] at h
    rcases hpop : heapPop pq with _ | ⟨et, pq2⟩
    · have hpq : pq = [] := by
        cases pq with
        | nil => rfl
        | cons a q =>
          cases q with
          | nil => simp [heapPop] at hpop
          | cons a2 q2 => simp [heapPop] at hpop
      subst hpq
      exact no_heap_no_path b s endc vis hinv p hp
    · rw [hpop] at h
      dsimp only [] at h
      split at h
      · exact Option.noConfusion h
      · rename_i hend
        rcases hdirs : aStarDirs b endc et.2.1 et.2.2.1 et.2.2.2 directions vis pq2 with gr | vp
        · rw [hdirs] at h
          exact Option.noConfusion h
        · obtain ⟨vis3, pq3⟩ := vp
          rw [hdirs] at h
          have hinv3 := aInv_step b s endc vis pq et pq2 vis3 pq3 hinv hpop hend hdirs
          have hmeas3 : 5 * countFalse vis3 + pq3.length ≤ fuel := by
            have h1 := aStarDirs_measure b endc et.2.1 et.2.2.1 et.2.2.2 directions vis pq2
              vis3 pq3 hdirs
            have h2 := heapPop_length pq et pq2 hpop
            omega
          exact ih vis3 pq3 hinv3 hmeas3 h p hp

/-- C3 (amended).  On a square board with in-bounds endpoints, a finite
`aStar` result `r` is the edge count of some 4-connected simple path from
`s` to `t` whose cells other than the two ends are empty (hence at least
the minimum over such paths — but, per the counterexample, not always that
minimum), and `aStar` returns `Infinity` (`none`) exactly when no such
path exists. -/
theorem C3_astar_amended (b : Board) (n : Nat) (s t : Cell) (hb : SquareBoard b n)
    (hs : InBn n s) (ht : InBn n t) :
    (∀ r, aStar b s t = some r → ∃ p, isOpenPath b s t p ∧ p.length = r + 1) ∧
      (aStar b s t = none ↔ ∀ p, ¬ isOpenPath b s t p) := by
  obtain ⟨s1, s2⟩ := s
  obtain ⟨t1, t2⟩ := t
  have hbl : b.length = n := hb.1
  have hsound : ∀ r, aStar b (s1, s2) (t1, t2) = some r →
      ∃ p, isOpenPath b (s1, s2) (t1, t2) p ∧ p.length = r + 1 := by
    intro r hr
    exact aStar_sound b (s1, s2) (t1, t2) r (by rw [hbl]; exact hs) hr
  refine ⟨hsound, ?_, ?_⟩
  · intro hnone p hp
    rw [aStar] at hnone
    have hpush : heapPush [] (0, 0, s1, s2) = [(0, 0, s1, s2)] := rfl
    have hAinv : AInv b (s1, s2) (t1, t2)
        (setVis (mkVis b.length) s1 s2) (heapPush [] (0, 0, s1, s2)) := by
      refine ⟨getVis_setVis_self _ _ _, ?_, ?_, ?_, ?_⟩
      · intro hseq
        exact ⟨(0, 0, s1, s2), by rw [hpush]; exact List.mem_singleton_self _, rfl, rfl⟩
      · intro hsne
        have hne2 : ((t1, t2) : Cell) ≠ (s1, s2) := fun hh => hsne hh.symm
        rw [getVis_setVis_ne _ _ _ _ _ hne2]
        exact getVis_mkVis b.length t1 t2 (by rw [hbl]; exact ht.1) (by rw [hbl]; exact ht.2)
      · intro e he hsne
        rw [hpush, List.mem_singleton] at he
        subst he
        exact hsne
      · intro r c hr hc hvis hnotin d hd
        exfalso
        by_cases hrc : ((r, c) : Cell) = (s1, s2)
        · exact hnotin ⟨(0, 0, s1, s2), by rw [hpush]; exact List.mem_singleton_self _,
            (congrArg Prod.fst hrc).symm, (congrArg Prod.snd hrc).symm⟩
        · rw [getVis_setVis_ne _ _ _ _ _ hrc, getVis_mkVis b.length r c hr hc] at hvis
          exact Bool.noConfusion hvis
    refine aStarLoop_complete b (s1, s2) (t1, t2) _ _ _ hAinv ?_ hnone p hp
    rw [hpush]
    simp
  · intro hnop
    rcases har : aStar b (s1, s2) (t1, t2) with _ | r
    · rfl
    · obtain ⟨p, hp, -⟩ := hsound r har
      exact absurd hp (hnop p)

/-- Witness for C3 (amended) at a concrete empty 2×2 board, where `aStar`
returns 2 and a 3-cell open path exists. -/
theorem C3_astar_amended_witness :
    ∃ p, isOpenPath [[0, 0], [0, 0]] (0, 0) (1, 1) p ∧ p.length = 2 + 1 :=
  (C3_astar_amended [[0, 0], [0, 0]] 2 (0, 0) (1, 1) (by decide) (by decide)
    (by decide)).1 2 (by decide)

/-! ### The C5 round trip, salvaged -/

theorem board_ext (A C : Board) (n : Nat) (hA : SquareBoard A n) (hC : SquareBoard C n)
    (h : ∀ c : Cell, InBn n c → getCell A c = getCell C c) : A = C := by
  have hlen : A.length = C.length := by rw [hA.1, hC.1]
  apply List.ext_getElem hlen
  intro i h1 h2
  apply List.ext_getElem
  · have hr1 : A[i].length = n := hA.2 _ (List.getElem_mem h1)
    have hr2 : C[i].length = n := hC.2 _ (List.getElem_mem h2)
    rw [hr1, hr2]
  · intro j hj1 hj2
    have hin : InBn n (i, j) :=
      ⟨by rw [← hA.1]; exact h1, by rw [← hA.2 _ (List.getElem_mem h1)]; exact hj1⟩
    have hcell := h (i, j) hin
    unfold getCell at hcell
    dsimp only at hcell
    rw [List.getD_eq_getElem A [] h1, List.getD_eq_getElem C [] h2,
      List.getD_eq_getElem _ _ hj1, List.getD_eq_getElem _ _ hj2] at hcell
    exact hcell

/-- C5 (amended).  On a fully-labelled solved input board, `solve` returns
either a null board (which, per the counterexample, does happen — the
endpoint pairs fed to the search are the first two row-major occurrences,
not the path extremes) or the input board itself: a returned board is all
positive and preserves every (hence here, all) input labels, so it can
only be `B`. -/
theorem C5_roundtrip_amended (B : Board) (n : Nat) (timer : Nat → Bool) (fuel tEnd : Nat)
    (r : SolveResult) (hB : SquareBoard B n) (hsolved : SolvedBoard B)
    (hr : solve (some B) timer fuel tEnd = some r) :
    r.board = none ∨ r.board = some B := by
  rcases hS : r.board with _ | S
  · exact Or.inl rfl
  · right
    obtain ⟨hsq, hag, -⟩ := solve_success_main B n timer fuel tEnd r S hB hr hS
    have hSB : S = B := by
      apply board_ext S B n hsq hB
      intro c hc
      exact hag c (hsolved.1 c (by rw [hB.1]; exact hc))
    rw [hSB]

/-- Witness for C5 (amended) at a concrete solved 2×2 board, on which the
run actually returns the board itself. -/
theorem C5_roundtrip_amended_witness :
    ({ board := some [[1, 2], [1, 2]], timedOut := false, timeTaken := 0, nodeCount := 2 } : SolveResult).board = none ∨
      ({ board := some [[1, 2], [1, 2]], timedOut := false, timeTaken := 0, nodeCount := 2 } : SolveResult).board = some [[1, 2], [1, 2]] :=
  C5_roundtrip_amended [[1, 2], [1, 2]] 2 (fun _ => false) 100 0
    { board := some [[1, 2], [1, 2]], timedOut := false, timeTaken := 0, nodeCount := 2 }
    (by decide)
    (by
      refine ⟨by decide, fun k hk hex => ?_⟩
      obtain ⟨c, hcin, hcv⟩ := hex
      have hc2 : c ∈ cellsN 2 := (mem_cellsN 2 c).mpr hcin
      fin_cases hc2 <;> rw [← hcv]
      · exact ⟨[(0, 0), (1, 0)], by decide⟩
      · exact ⟨[(0, 1), (1, 1)], by decide⟩
      · exact ⟨[(0, 0), (1, 0)], by decide⟩
      · exact ⟨[(0, 1), (1, 1)], by decide⟩)
    (by decide)

end FlowSolver
